import Mathlib

/-!
Verification of the `pedroalbanese/tar` archive mutation engine
(`cmd/tar/main.go`).

Go strings are modelled as `List Char` (one `Char` per byte of the ASCII
texts the claims are about), byte streams as `List Nat`, file-system state
as the bytes and permission mode of the single archive file.  The Go
standard-library collaborators used by the engine (`archive/tar`,
`path/filepath.Match`, `strconv.Atoi`, `filepath.Ext`) are modelled
concretely below, following the algorithms of the Go standard library;
everything else is translated directly from `cmd/tar/main.go`.
-/

/-- Model of a Go string: its sequence of characters. -/
abbrev GoStr := List Char

/-! ## Go string comparison (`<` on strings, used by `sortedKeys`) -/

/-- Byte-wise lexicographic comparison of Go strings (`a < b` in Go):
a proper prefix sorts first. -/
def strLt : GoStr → GoStr → Bool
  | _, [] => false
  | [], _ :: _ => true
  | a :: as, b :: bs => if a = b then strLt as bs else decide (a < b)

theorem strLt_irrefl : ∀ a : GoStr, strLt a a = false := by
  intro a
  induction a with
  | nil => rfl
  | cons c cs ih => simp [strLt, ih]

theorem strLt_asymm : ∀ {a b : GoStr}, strLt a b = true → strLt b a = false := by
  intro a
  induction a with
  | nil =>
    intro b h
    cases b with
    | nil => simp [strLt] at h
    | cons c cs => rfl
  | cons c cs ih =>
    intro b h
    cases b with
    | nil => simp [strLt] at h
    | cons d ds =>
      by_cases hcd : c = d
      · subst hcd
        simp only [strLt, if_pos rfl] at h ⊢
        exact ih h
      · simp only [strLt, if_neg hcd] at h
        have hcd' : d ≠ c := fun h2 => hcd h2.symm
        simp only [strLt, if_neg hcd']
        have hlt : c < d := of_decide_eq_true h
        simpa using not_lt_of_lt hlt

theorem strLt_total : ∀ {a b : GoStr}, a ≠ b → strLt a b = true ∨ strLt b a = true := by
  intro a
  induction a with
  | nil =>
    intro b hne
    cases b with
    | nil => exact absurd rfl hne
    | cons c cs => left; rfl
  | cons c cs ih =>
    intro b hne
    cases b with
    | nil => right; rfl
    | cons d ds =>
      by_cases hcd : c = d
      · subst hcd
        have hne' : cs ≠ ds := by
          intro h; exact hne (by rw [h])
        rcases ih hne' with h | h
        · left; simpa [strLt] using h
        · right; simpa [strLt] using h
      · have hcd' : d ≠ c := fun h2 => hcd h2.symm
        rcases lt_trichotomy c d with h | h | h
        · left; simp [strLt, if_neg hcd, h]
        · exact absurd h hcd
        · right; simp [strLt, if_neg hcd', h]

theorem strLt_trans : ∀ {a b c : GoStr},
    strLt a b = true → strLt b c = true → strLt a c = true := by
  intro a
  induction a with
  | nil =>
    intro b c hab hbc
    cases c with
    | nil =>
      cases b with
      | nil => simp [strLt] at hab
      | cons d ds => simp [strLt] at hbc
    | cons e es => rfl
  | cons x xs ih =>
    intro b c hab hbc
    cases b with
    | nil => simp [strLt] at hab
    | cons y ys =>
      cases c with
      | nil => simp [strLt] at hbc
      | cons z zs =>
        by_cases hxy : x = y
        · subst hxy
          by_cases hyz : x = z
          · subst hyz
            simp only [strLt, if_pos rfl] at hab hbc ⊢
            exact ih hab hbc
          · simp only [strLt, if_pos rfl] at hab
            simp only [strLt, if_neg hyz] at hbc ⊢
            exact hbc
        · simp only [strLt, if_neg hxy] at hab
          have hlt1 : x < y := of_decide_eq_true hab
          by_cases hyz : y = z
          · subst hyz
            simp only [strLt, if_neg hxy]
            simpa using hlt1
          · simp only [strLt, if_neg hyz] at hbc
            have hlt2 : y < z := of_decide_eq_true hbc
            have hxz : x < z := lt_trans hlt1 hlt2
            have hxz' : x ≠ z := ne_of_lt hxz
            simp [strLt, if_neg hxz', hxz]

/-! ## `strings.Split(key, "/")` and its inverse -/

/-- Model of Go `strings.Split(s, "/")`: splits at every `/`, keeping empty
segments; the empty string yields one empty segment. -/
def splitOnSlash : GoStr → List GoStr
  | [] => [[]]
  | c :: rest =>
    if c = '/' then [] :: splitOnSlash rest
    else
      match splitOnSlash rest with
      | [] => [[c]]
      | seg :: segs => (c :: seg) :: segs

/-- Joining the segments with `/` is a left inverse of `splitOnSlash`. -/
def joinSlash : List GoStr → GoStr
  | [] => []
  | [s] => s
  | s :: rest => s ++ '/' :: joinSlash rest

theorem splitOnSlash_ne_nil : ∀ s : GoStr, splitOnSlash s ≠ [] := by
  intro s
  cases s with
  | nil => simp [splitOnSlash]
  | cons c rest =>
    by_cases h : c = '/'
    · simp [splitOnSlash, h]
    · simp only [splitOnSlash, if_neg h]
      cases hrec : splitOnSlash rest with
      | nil => simp
      | cons seg segs => simp

theorem joinSlash_splitOnSlash : ∀ s : GoStr, joinSlash (splitOnSlash s) = s := by
  intro s
  induction s with
  | nil => rfl
  | cons c rest ih =>
    by_cases h : c = '/'
    · subst h
      simp only [splitOnSlash, if_pos rfl]
      cases hrec : splitOnSlash rest with
      | nil => exact absurd hrec (splitOnSlash_ne_nil rest)
      | cons seg segs =>
        rw [hrec] at ih
        simp [joinSlash, ih]
    · simp only [splitOnSlash, if_neg h]
      cases hrec : splitOnSlash rest with
      | nil => exact absurd hrec (splitOnSlash_ne_nil rest)
      | cons seg segs =>
        rw [hrec] at ih
        cases segs with
        | nil => simp_all [joinSlash]
        | cons t ts => simp_all [joinSlash]

theorem splitOnSlash_injective : ∀ {a b : GoStr},
    splitOnSlash a = splitOnSlash b → a = b := by
  intro a b h
  have := congrArg joinSlash h
  rwa [joinSlash_splitOnSlash, joinSlash_splitOnSlash] at this

/-! ## The comparator of `sortedKeys` (main.go lines 1282-1292) -/

/-- The segment-list comparison performed by the closure passed to
`sort.SliceStable` in `sortedKeys`: walk the two part lists in parallel,
skip equal parts, compare the first differing parts with Go `<`, and if
one list of parts is exhausted rank the shorter one first. -/
def pathPartsLess : List GoStr → List GoStr → Bool
  | _, [] => false
  | [], _ :: _ => true
  | a :: as, b :: bs => if a = b then pathPartsLess as bs else strLt a b

/-- Comparator used by `sortedKeys`: split both keys on the path separator
and compare the parts (`sort.SliceStable` closure, main.go 1282-1292). -/
def sortedKeysLess (a b : GoStr) : Bool :=
  pathPartsLess (splitOnSlash a) (splitOnSlash b)

theorem pathPartsLess_asymm : ∀ {a b : List GoStr},
    pathPartsLess a b = true → pathPartsLess b a = false := by
  intro a
  induction a with
  | nil =>
    intro b h
    cases b with
    | nil => simp [pathPartsLess] at h
    | cons c cs => rfl
  | cons c cs ih =>
    intro b h
    cases b with
    | nil => simp [pathPartsLess] at h
    | cons d ds =>
      by_cases hcd : c = d
      · subst hcd
        simp only [pathPartsLess, if_pos rfl] at h ⊢
        exact ih h
      · have hcd' : d ≠ c := fun h2 => hcd h2.symm
        simp only [pathPartsLess, if_neg hcd] at h
        simp only [pathPartsLess, if_neg hcd']
        exact strLt_asymm h

theorem pathPartsLess_total : ∀ {a b : List GoStr},
    a ≠ b → pathPartsLess a b = true ∨ pathPartsLess b a = true := by
  intro a
  induction a with
  | nil =>
    intro b hne
    cases b with
    | nil => exact absurd rfl hne
    | cons c cs => left; rfl
  | cons c cs ih =>
    intro b hne
    cases b with
    | nil => right; rfl
    | cons d ds =>
      by_cases hcd : c = d
      · subst hcd
        have hne' : cs ≠ ds := by
          intro h; exact hne (by rw [h])
        rcases ih hne' with h | h
        · left; simpa [pathPartsLess] using h
        · right; simpa [pathPartsLess] using h
      · have hcd' : d ≠ c := fun h2 => hcd h2.symm
        rcases strLt_total hcd with h | h
        · left; simp [pathPartsLess, if_neg hcd, h]
        · right; simp [pathPartsLess, if_neg hcd', h]

theorem pathPartsLess_trans : ∀ {a b c : List GoStr},
    pathPartsLess a b = true → pathPartsLess b c = true → pathPartsLess a c = true := by
  intro a
  induction a with
  | nil =>
    intro b c hab hbc
    cases c with
    | nil =>
      cases b with
      | nil => simp [pathPartsLess] at hab
      | cons d ds => simp [pathPartsLess] at hbc
    | cons e es => rfl
  | cons x xs ih =>
    intro b c hab hbc
    cases b with
    | nil => simp [pathPartsLess] at hab
    | cons y ys =>
      cases c with
      | nil => simp [pathPartsLess] at hbc
      | cons z zs =>
        by_cases hxy : x = y
        · subst hxy
          by_cases hyz : x = z
          · subst hyz
            simp only [pathPartsLess, if_pos rfl] at hab hbc ⊢
            exact ih hab hbc
          · simp only [pathPartsLess, if_pos rfl] at hab
            simp only [pathPartsLess, if_neg hyz] at hbc ⊢
            exact hbc
        · simp only [pathPartsLess, if_neg hxy] at hab
          by_cases hyz : y = z
          · subst hyz
            simp only [pathPartsLess, if_neg hxy]
            exact hab
          · simp only [pathPartsLess, if_neg hyz] at hbc
            have hxz : strLt x z = true := strLt_trans hab hbc
            have hxz' : x ≠ z := by
              intro h
              subst h
              rw [strLt_irrefl] at hxz
              exact Bool.false_ne_true hxz
            simp [pathPartsLess, if_neg hxz', hxz]

theorem sortedKeysLess_asymm {a b : GoStr} (h : sortedKeysLess a b = true) :
    sortedKeysLess b a = false :=
  pathPartsLess_asymm h

theorem sortedKeysLess_total {a b : GoStr} (h : a ≠ b) :
    sortedKeysLess a b = true ∨ sortedKeysLess b a = true :=
  pathPartsLess_total (fun hs => h (splitOnSlash_injective hs))

theorem sortedKeysLess_trans {a b c : GoStr} (hab : sortedKeysLess a b = true)
    (hbc : sortedKeysLess b c = true) : sortedKeysLess a c = true :=
  pathPartsLess_trans hab hbc

/-- The non-strict order in which `sort.SliceStable` leaves adjacent keys:
`a` need not come strictly before `b`. -/
def keyOrder (a b : GoStr) : Prop := ¬ sortedKeysLess b a = true

instance : DecidableRel keyOrder := fun _ _ => instDecidableNot

instance : IsTotal GoStr keyOrder := by
  constructor
  intro a b
  by_cases hab : sortedKeysLess a b = true
  · left
    intro hba
    rw [sortedKeysLess_asymm hab] at hba
    exact Bool.false_ne_true hba
  · right; exact hab

instance : IsTrans GoStr keyOrder := by
  constructor
  intro a b c hab hbc hca
  by_cases hbc' : b = c
  · subst hbc'; exact hab hca
  · rcases sortedKeysLess_total hbc' with h | h
    · exact hab (sortedKeysLess_trans h hca)
    · exact hbc h

instance : IsAntisymm GoStr keyOrder := by
  constructor
  intro a b hab hba
  by_contra hne
  rcases sortedKeysLess_total hne with h | h
  · exact hba h
  · exact hab h

theorem keyOrder_of_lt {a b : GoStr} (h : sortedKeysLess a b = true) : keyOrder a b := by
  intro hba
  rw [sortedKeysLess_asymm h] at hba
  exact Bool.false_ne_true hba

theorem lt_of_keyOrder_ne {a b : GoStr} (h : keyOrder a b) (hne : a ≠ b) :
    sortedKeysLess a b = true := by
  rcases sortedKeysLess_total hne with h1 | h1
  · exact h1
  · exact absurd h1 h

/-! ## Models of Go standard-library helpers used by `main.go` -/

/-- Helper for `goExt`: scan the reversed path; stop at the first `.`
(returning it plus everything after it) or at a path separator. -/
def goExtAux : List Char → List Char → GoStr
  | [], _ => []
  | c :: rest, acc =>
    if c = '/' then []
    else if c = '.' then c :: acc
    else goExtAux rest (c :: acc)

/-- Model of Go `filepath.Ext`: the suffix of the path starting at the last
dot in the final path element, or empty if there is none. -/
def goExt (p : GoStr) : GoStr := goExtAux p.reverse []

/-- Decimal digit value accumulation for `goAtoi`. -/
def digitsVal (ds : List Char) : Nat :=
  ds.foldl (fun acc c => acc * 10 + (c.toNat - 48)) 0

/-- Model of Go `strconv.Atoi`: an optional single sign followed by at
least one decimal digit, rejecting values outside the `int64` range
(`Atoi` forwards the `ErrRange` failure of `ParseInt`). -/
def goAtoi (s : GoStr) : Option Int :=
  match s with
  | [] => none
  | c :: rest =>
    let sign : Int := if c = '-' then -1 else 1
    let digits := if c = '-' ∨ c = '+' then rest else c :: rest
    if digits = [] then none
    else if digits.all (fun d => d.isDigit) then
      let i : Int := sign * (digitsVal digits : Int)
      if -(2 ^ 63) ≤ i ∧ i ≤ 2 ^ 63 - 1 then some i else none
    else none

/-- Helper for `natToDigits` with explicit fuel (the value shrinks by a
factor of ten per step, so `n + 1` steps always suffice). -/
def natToDigitsAux : Nat → Nat → List Char
  | 0, _ => []
  | fuel + 1, n =>
    if n < 10 then [Char.ofNat (48 + n)]
    else natToDigitsAux fuel (n / 10) ++ [Char.ofNat (48 + n % 10)]

/-- Model of Go `fmt.Sprintf("%d", n)` for a natural number. -/
def natToDigits (n : Nat) : GoStr := natToDigitsAux (n + 1) n

/-- Model of Go `strings.TrimSuffix(p, "/")`: drop one trailing slash if
present. -/
def trimSuffixSlash (p : GoStr) : GoStr :=
  if ['/'].isSuffixOf p then p.take (p.length - 1) else p

/-- Outcome of a Go run-time panic inside the engine. -/
inductive GoPanic where
  | sliceBounds
deriving DecidableEq

/-- Model of the Go string-slicing expression `s[lo:hi]` with the run-time
bounds check: out-of-range bounds panic instead of returning a value. -/
def goSlice (s : GoStr) (lo hi : Int) : Except GoPanic GoStr :=
  if 0 ≤ lo ∧ lo ≤ hi ∧ hi ≤ (s.length : Int) then
    .ok ((s.drop lo.toNat).take (hi - lo).toNat)
  else .error .sliceBounds

/-! ## Model of Go `path/filepath.Match`

Translated from the Go standard library's `match.go` (Unix rules:
`\` escapes, `/` is the separator).  The loops are expressed with
explicit fuel; every fuel argument below strictly exceeds the number of
iterations the corresponding Go loop can perform, so the fuel-exhausted
branches are unreachable. -/

/-- Strip the leading `*`s of a pattern (start of Go `scanChunk`). -/
def dropStars : List Char → Bool × List Char
  | [] => (false, [])
  | c :: rest => if c = '*' then (true, (dropStars rest).2) else (false, c :: rest)

/-- Scan of Go `scanChunk` after the leading stars: copy characters up to
the next top-level `*`, tracking bracket nesting and skipping escaped
characters. -/
def scanChunkAux : List Char → Bool → List Char × List Char
  | [], _ => ([], [])
  | c :: rest, inrange =>
    if c = '*' && !inrange then ([], c :: rest)
    else if c = '\\' then
      match rest with
      | [] => ([c], [])
      | d :: rest' =>
        let (chunk, r) := scanChunkAux rest' inrange
        (c :: d :: chunk, r)
    else
      let inrange' := if c = '[' then true else if c = ']' then false else inrange
      let (chunk, r) := scanChunkAux rest inrange'
      (c :: chunk, r)

/-- Model of Go `scanChunk`: split a pattern into leading-star flag, first
chunk, and remaining pattern. -/
def scanChunk (pattern : List Char) : Bool × List Char × List Char :=
  let (star, p) := dropStars pattern
  let (chunk, rest) := scanChunkAux p false
  (star, chunk, rest)

/-- Model of Go `getEsc`: read one possibly-escaped character of a
character class, failing on `ErrBadPattern` conditions. -/
def getEsc : List Char → Except Unit (Char × List Char)
  | [] => .error ()
  | c :: rest =>
    if c = '-' ∨ c = ']' then .error ()
    else if c = '\\' then
      match rest with
      | [] => .error ()
      | d :: rest' => .ok (d, rest')
    else .ok (c, rest)

/-- The range-parsing loop of the `[` case of Go `matchChunk`: consume
`lo-hi` ranges until the closing `]`, recording whether `r` fell in any
range. -/
def parseRanges : Nat → Char → List Char → Nat → Bool → Except Unit (Bool × List Char)
  | 0, _, _, _, _ => .error ()
  | _ + 1, _, ']' :: rest, _ + 1, matched => .ok (matched, rest)
  | fuel + 1, r, chunk, nrange, matched =>
    match getEsc chunk with
    | .error e => .error e
    | .ok (lo, chunk1) =>
      match chunk1 with
      | '-' :: chunk1' =>
        match getEsc chunk1' with
        | .error e => .error e
        | .ok (hi, chunk2) =>
          parseRanges fuel r chunk2 (nrange + 1) (matched || decide (lo ≤ r ∧ r ≤ hi))
      | _ =>
        parseRanges fuel r chunk1 (nrange + 1) (matched || decide (lo ≤ r ∧ r ≤ lo))

/-- Model of the loop body of Go `matchChunk`: consume the chunk against
the head of `s`; after a mismatch, keep scanning the chunk for syntax
errors without consuming `s` (the `failed` flag). -/
def matchChunkAux : Nat → List Char → List Char → Bool → Except Unit (List Char × Bool)
  | 0, _, _, _ => .error ()
  | _ + 1, [], s, failed => if failed then .ok ([], false) else .ok (s, true)
  | fuel + 1, c :: chunkRest, s, failed0 =>
    let failed := failed0 || s.isEmpty
    if c = '[' then
      let r := s.headD (Char.ofNat 0)
      let s' := if failed then s else s.tail
      let negated : Bool := decide (chunkRest.head? = some '^')
      let chunk1 := if chunkRest.head? = some '^' then chunkRest.tail else chunkRest
      match parseRanges (chunk1.length + 1) r chunk1 0 false with
      | .error e => .error e
      | .ok (matched, chunk2) =>
        matchChunkAux fuel chunk2 s' (failed || (matched == negated))
    else if c = '?' then
      let failed' := failed || decide (s.headD '/' = '/')
      let s' := if failed then s else s.tail
      matchChunkAux fuel chunkRest s' failed'
    else if c = '\\' then
      match chunkRest with
      | [] => .error ()
      | d :: chunkRest' =>
        let failed' := failed || decide (s.headD d ≠ d)
        let s' := if failed then s else s.tail
        matchChunkAux fuel chunkRest' s' failed'
    else
      let failed' := failed || decide (s.headD c ≠ c)
      let s' := if failed then s else s.tail
      matchChunkAux fuel chunkRest s' failed'

/-- Model of Go `matchChunk`: match a chunk against the start of `s`,
returning the unconsumed part of `s` and whether the chunk matched. -/
def matchChunk (chunk s : List Char) : Except Unit (List Char × Bool) :=
  matchChunkAux (chunk.length + 1) chunk s false

/-- Result of the star-retry loop inside Go `Match`. -/
inductive StarRes where
  | bad
  | notFound
  | found (t : List Char)

/-- The star-retry loop of Go `Match`: after a failed chunk match under a
`*`, retry the chunk at each later position of the current path segment. -/
def starLoop (chunk rest : List Char) : List Char → StarRes
  | [] => .notFound
  | c :: nameRest =>
    if c = '/' then .notFound
    else
      match matchChunk chunk nameRest with
      | .error _ => .bad
      | .ok (t, ok) =>
        if ok then
          if rest.isEmpty && !t.isEmpty then starLoop chunk rest nameRest
          else .found t
        else starLoop chunk rest nameRest

/-- The final syntax-validation loop of Go `Match`: before returning a
non-error `false`, check the rest of the pattern for bad syntax. -/
def checkRemaining : Nat → List Char → Except Unit Unit
  | _, [] => .ok ()
  | 0, _ => .error ()
  | fuel + 1, p =>
    let (_, chunk, rest) := scanChunk p
    match matchChunk chunk [] with
    | .error e => .error e
    | .ok _ => checkRemaining fuel rest

/-- The main pattern loop of Go `Match`. -/
def goMatchAux : Nat → List Char → List Char → Except Unit Bool
  | 0, _, _ => .error ()
  | _ + 1, [], name => .ok name.isEmpty
  | fuel + 1, pattern, name =>
    let (star, chunk, rest) := scanChunk pattern
    if star && chunk.isEmpty then .ok (decide (¬ '/' ∈ name))
    else
      match matchChunk chunk name with
      | .error _ => .error ()
      | .ok (t, ok) =>
        if ok && (t.isEmpty || !rest.isEmpty) then goMatchAux fuel rest t
        else if star then
          match starLoop chunk rest name with
          | .bad => .error ()
          | .found t' => goMatchAux fuel rest t'
          | .notFound =>
            match checkRemaining (rest.length + 1) rest with
            | .error e => .error e
            | .ok _ => .ok false
        else
          match checkRemaining (rest.length + 1) rest with
          | .error e => .error e
          | .ok _ => .ok false

/-- Model of Go `filepath.Match(pattern, name)`: `.ok matched` or
`.error` for `ErrBadPattern`. -/
def goMatch (pattern name : GoStr) : Except Unit Bool :=
  goMatchAux (pattern.length + 1) pattern name

/-! ## Archive data model

`tar.Header` is modelled with the fields the engine reads or writes:
name, type flag, permissions, ownership, size and modification time.
`FileEntry` is the struct of main.go lines 1155-1158. -/

/-- Model of the `tar.Header` fields used by the engine. -/
structure Header where
  name : GoStr
  typeflag : Char
  mode : Nat
  uid : Nat
  gid : Nat
  size : Int
  modTime : Int
deriving DecidableEq

/-- Go `hdr.FileInfo().IsDir()`: the type flag is `tar.TypeDir`. -/
def Header.isDir (h : Header) : Bool := h.typeflag = '5'

/-- The `FileEntry` struct (main.go 1155-1158): a header plus the
member's content, read fully into memory. -/
structure FileEntry where
  header : Header
  content : List Nat
deriving DecidableEq

/-- Invariant of entries produced by decoding: a directory member carries
no content, and a file member's header size equals its content length. -/
def entryWF (e : FileEntry) : Prop :=
  (e.header.isDir = true → e.content = []) ∧
  (e.header.isDir = false → e.header.size = (e.content.length : Int))

instance (e : FileEntry) : Decidable (entryWF e) := by
  unfold entryWF; infer_instance

/-- Size recomputation performed before each `tw.WriteHeader` call
(`header.Size = int64(len(entry.Content))` for non-directories). -/
def fixSize (e : FileEntry) : FileEntry :=
  if e.header.isDir then e
  else { e with header := { e.header with size := (e.content.length : Int) } }

/-! ## Serialization model of `archive/tar`

The engine treats the tar format itself as an external collaborator: it
only relies on `tar.Writer`/`tar.Reader` being a sequential
header-then-content codec in which a directory member is header-only, a
file member's content occupies exactly `header.Size` bytes after the
header, and a corrupt or truncated stream fails the read loop.  The
model below realises that contract with a simple self-delimiting byte
encoding (naturals in unary). -/

/-- Self-delimiting encoding of a natural number: `n` ones then a zero. -/
def encNat (n : Nat) : List Nat := List.replicate n 1 ++ [0]

/-- Self-delimiting encoding of an integer: a sign byte then the
magnitude. -/
def encInt (i : Int) : List Nat := (if i < 0 then 1 else 0) :: encNat i.natAbs

/-- Byte encoding of a header block. -/
def encHeader (h : Header) : List Nat :=
  encNat h.name.length ++ h.name.map Char.toNat ++
    [h.typeflag.toNat] ++ encNat h.mode ++ encNat h.uid ++ encNat h.gid ++
    encInt h.size ++ encInt h.modTime

/-- Errors of the modelled operations, mirroring the spec's taxonomy. -/
inductive TarErr where
  | malformedArchive
  | codecError
  | writeError
deriving DecidableEq

/-- Model of `tw.WriteHeader(header)` followed by `tw.Write(content)`:
the writer rejects a file entry whose declared size disagrees with the
written content length; a directory member is written header-only. -/
def writeEntry (e : FileEntry) : Except TarErr (List Nat) :=
  if e.header.isDir then .ok (encHeader e.header)
  else if e.header.size = (e.content.length : Int) then
    .ok (encHeader e.header ++ e.content)
  else .error .writeError

/-- Parse a unary-encoded natural, returning it and the remaining bytes. -/
def decNat : List Nat → Option (Nat × List Nat)
  | 0 :: rest => some (0, rest)
  | 1 :: rest =>
    match decNat rest with
    | some (n, r) => some (n + 1, r)
    | none => none
  | _ => none

/-- Parse a sign-prefixed integer. -/
def decInt : List Nat → Option (Int × List Nat)
  | 0 :: rest =>
    match decNat rest with
    | some (n, r) => some ((n : Int), r)
    | none => none
  | 1 :: rest =>
    match decNat rest with
    | some (n, r) => some (-(n : Int), r)
    | none => none
  | _ => none

/-- Take exactly `n` bytes from the stream or fail (a truncated stream is
malformed). -/
def takeBytes (n : Nat) (bs : List Nat) : Option (List Nat × List Nat) :=
  if n ≤ bs.length then some (bs.take n, bs.drop n) else none

/-- Parse a header block. -/
def decHeader (bs : List Nat) : Option (Header × List Nat) :=
  (decNat bs).bind fun p1 =>
  (takeBytes p1.1 p1.2).bind fun p2 =>
  (match p2.2 with
   | [] => none
   | tf :: r3 => some (tf, r3)).bind fun p3 =>
  (decNat p3.2).bind fun p4 =>
  (decNat p4.2).bind fun p5 =>
  (decNat p5.2).bind fun p6 =>
  (decInt p6.2).bind fun p7 =>
  (decInt p7.2).bind fun p8 =>
  some (⟨p2.1.map Char.ofNat, Char.ofNat p3.1, p4.1, p5.1, p6.1, p7.1, p8.1⟩, p8.2)

/-- Model of one iteration of the read loop: `tr.Next()` plus
`io.ReadAll(tr)` for non-directories (which consumes exactly
`header.Size` bytes). -/
def decodeEntry (bs : List Nat) : Option (FileEntry × List Nat) :=
  (decHeader bs).bind fun p =>
    if p.1.isDir then some (⟨p.1, []⟩, p.2)
    else if p.1.size < 0 then none
    else (takeBytes p.1.size.toNat p.2).bind fun q => some (⟨p.1, q.1⟩, q.2)

/-- The full read loop of the mutation operations: iterate `tr.Next()`
until end of stream, failing on a malformed entry. -/
def decodeArchiveAux : Nat → List Nat → Except TarErr (List FileEntry)
  | _, [] => .ok []
  | 0, _ :: _ => .error .malformedArchive
  | fuel + 1, bs =>
    match decodeEntry bs with
    | none => .error .malformedArchive
    | some (e, rest) =>
      match decodeArchiveAux fuel rest with
      | .ok es => .ok (e :: es)
      | .error er => .error er

/-- Decode a byte stream into the list of archive members (each entry
consumes at least one byte, so the stream length bounds the loop). -/
def decodeArchive (bs : List Nat) : Except TarErr (List FileEntry) :=
  decodeArchiveAux bs.length bs

/-! ## Round-trip properties of the serialization model -/

theorem decNat_encNat : ∀ (n : Nat) (t : List Nat), decNat (encNat n ++ t) = some (n, t) := by
  intro n
  induction n with
  | zero => intro t; rfl
  | succ m ih =>
    intro t
    have h1 : encNat (m + 1) ++ t = 1 :: (encNat m ++ t) := by
      simp [encNat, List.replicate_succ]
    rw [h1]
    show (match decNat (encNat m ++ t) with
      | some (n, r) => some (n + 1, r)
      | none => none) = some (m + 1, t)
    rw [ih t]

theorem decInt_encInt : ∀ (i : Int) (t : List Nat), decInt (encInt i ++ t) = some (i, t) := by
  intro i t
  by_cases h : i < 0
  · have h1 : encInt i ++ t = 1 :: (encNat i.natAbs ++ t) := by
      simp [encInt, if_pos h]
    rw [h1]
    show (match decNat (encNat i.natAbs ++ t) with
      | some (n, r) => some (-(n : Int), r)
      | none => none) = some (i, t)
    rw [decNat_encNat]
    show some (-(i.natAbs : Int), t) = some (i, t)
    simp only [Option.some.injEq, Prod.mk.injEq]
    exact ⟨by omega, trivial⟩
  · have h1 : encInt i ++ t = 0 :: (encNat i.natAbs ++ t) := by
      simp [encInt, if_neg h]
    rw [h1]
    show (match decNat (encNat i.natAbs ++ t) with
      | some (n, r) => some ((n : Int), r)
      | none => none) = some (i, t)
    rw [decNat_encNat]
    show some ((i.natAbs : Int), t) = some (i, t)
    simp only [Option.some.injEq, Prod.mk.injEq]
    exact ⟨by omega, trivial⟩

theorem takeBytes_append (l t : List Nat) : takeBytes l.length (l ++ t) = some (l, t) := by
  unfold takeBytes
  rw [if_pos]
  · rw [List.take_left, List.drop_left]
  · simp

theorem takeBytes_map_toNat (l : List Char) (t : List Nat) :
    takeBytes l.length (l.map Char.toNat ++ t) = some (l.map Char.toNat, t) := by
  have h : l.length = (l.map Char.toNat).length := by simp
  rw [h, takeBytes_append]

theorem map_ofNat_toNat (l : List Char) : (l.map Char.toNat).map Char.ofNat = l := by
  rw [List.map_map]
  have : (Char.ofNat ∘ Char.toNat) = id := by
    funext c; exact Char.ofNat_toNat c
  rw [this, List.map_id]

theorem decHeader_encHeader (h : Header) (t : List Nat) :
    decHeader (encHeader h ++ t) = some (h, t) := by
  unfold decHeader encHeader
  simp only [List.append_assoc, List.cons_append]
  rw [decNat_encNat]
  simp only [Option.some_bind]
  rw [takeBytes_map_toNat]
  simp only [Option.some_bind, List.nil_append]
  rw [decNat_encNat]
  simp only [Option.some_bind]
  rw [decNat_encNat]
  simp only [Option.some_bind]
  rw [decNat_encNat]
  simp only [Option.some_bind]
  rw [decInt_encInt]
  simp only [Option.some_bind]
  rw [decInt_encInt]
  simp only [Option.some_bind, map_ofNat_toNat, Char.ofNat_toNat]

/-- The byte block a successful `writeEntry` emits. -/
def entryBytes (e : FileEntry) : List Nat :=
  encHeader e.header ++ (if e.header.isDir then [] else e.content)

theorem writeEntry_ok_of_wf {e : FileEntry} (hwf : entryWF e) :
    writeEntry e = .ok (entryBytes e) := by
  unfold writeEntry entryBytes
  cases hdir : e.header.isDir with
  | true => simp
  | false =>
    have hsz := hwf.2 hdir
    simp [hsz]

theorem decodeEntry_entryBytes {e : FileEntry} (hwf : entryWF e) (t : List Nat) :
    decodeEntry (entryBytes e ++ t) = some (e, t) := by
  cases hdir : e.header.isDir with
  | true =>
    have hb : entryBytes e ++ t = encHeader e.header ++ t := by
      unfold entryBytes; rw [if_pos hdir]; simp
    rw [hb]
    unfold decodeEntry
    rw [decHeader_encHeader]
    simp only [Option.some_bind]
    rw [if_pos hdir]
    have hc : e.content = [] := hwf.1 hdir
    cases e with
    | mk hd ct => simp_all
  | false =>
    have hsz := hwf.2 hdir
    have hb : entryBytes e ++ t = encHeader e.header ++ (e.content ++ t) := by
      unfold entryBytes; rw [if_neg (by rw [hdir]; simp)]; simp
    rw [hb]
    unfold decodeEntry
    rw [decHeader_encHeader]
    simp only [Option.some_bind]
    rw [if_neg (show ¬ e.header.isDir = true by rw [hdir]; simp)]
    rw [if_neg (show ¬ e.header.size < 0 by rw [hsz]; exact not_lt.mpr (Int.natCast_nonneg _))]
    have htoNat : e.header.size.toNat = e.content.length := by
      rw [hsz]; exact Int.toNat_natCast _
    rw [htoNat, takeBytes_append]
    simp only [Option.some_bind]

theorem entryBytes_ne_nil (e : FileEntry) : entryBytes e ≠ [] := by
  unfold entryBytes encHeader encNat
  cases hn : e.header.name.length <;> simp

/-- Concatenated byte blocks of a list of entries. -/
def entriesBytes (es : List FileEntry) : List Nat :=
  (es.map entryBytes).flatten

theorem length_le_entriesBytes (es : List FileEntry) :
    es.length ≤ (entriesBytes es).length := by
  induction es with
  | nil => simp [entriesBytes]
  | cons e rest ih =>
    simp only [entriesBytes, List.map_cons, List.flatten_cons, List.length_append,
      List.length_cons]
    have h1 : 1 ≤ (entryBytes e).length :=
      Nat.one_le_iff_ne_zero.mpr (by simpa using entryBytes_ne_nil e)
    simp only [entriesBytes] at ih
    omega

theorem decodeArchiveAux_entriesBytes :
    ∀ (es : List FileEntry) (fuel : Nat), (∀ e ∈ es, entryWF e) →
      es.length ≤ fuel → decodeArchiveAux fuel (entriesBytes es) = .ok es := by
  intro es
  induction es with
  | nil => intro fuel _ _; cases fuel <;> rfl
  | cons e rest ih =>
    intro fuel hwf hlen
    cases fuel with
    | zero => simp at hlen
    | succ f =>
      have hbytes : entriesBytes (e :: rest) = entryBytes e ++ entriesBytes rest := by
        simp [entriesBytes]
      obtain ⟨b, bs, hb⟩ : ∃ b bs, entryBytes e ++ entriesBytes rest = b :: bs := by
        cases hcase : entryBytes e ++ entriesBytes rest with
        | nil => exact absurd (List.append_eq_nil.mp hcase).1 (entryBytes_ne_nil e)
        | cons b bs => exact ⟨b, bs, rfl⟩
      rw [hbytes, hb]
      show (match decodeEntry (b :: bs) with
        | none => Except.error TarErr.malformedArchive
        | some (e', rest') =>
          match decodeArchiveAux f rest' with
          | .ok es' => Except.ok (e' :: es')
          | .error er => Except.error er) = Except.ok (e :: rest)
      rw [← hb, decodeEntry_entryBytes (hwf e (by simp))]
      have hrest : decodeArchiveAux f (entriesBytes rest) = .ok rest :=
        ih f (fun x hx => hwf x (by simp [hx])) (by simp at hlen; omega)
      show (match decodeArchiveAux f (entriesBytes rest) with
        | .ok es' => Except.ok (e :: es')
        | .error er => Except.error er) = Except.ok (e :: rest)
      rw [hrest]

theorem decodeArchive_entriesBytes {es : List FileEntry} (hwf : ∀ e ∈ es, entryWF e) :
    decodeArchive (entriesBytes es) = .ok es :=
  decodeArchiveAux_entriesBytes es (entriesBytes es).length hwf (length_le_entriesBytes es)

theorem takeBytes_some {n : Nat} {bs c r : List Nat} (h : takeBytes n bs = some (c, r)) :
    c.length = n := by
  unfold takeBytes at h
  by_cases hle : n ≤ bs.length
  · rw [if_pos hle] at h
    simp only [Option.some.injEq, Prod.mk.injEq] at h
    rw [← h.1, List.length_take]
    omega
  · rw [if_neg hle] at h
    cases h

theorem decodeEntry_wf {bs : List Nat} {e : FileEntry} {r : List Nat}
    (h : decodeEntry bs = some (e, r)) : entryWF e := by
  unfold decodeEntry at h
  cases hdec : decHeader bs with
  | none => rw [hdec] at h; simp at h
  | some p =>
    rw [hdec] at h
    simp only [Option.some_bind] at h
    by_cases hdir : p.1.isDir
    · rw [if_pos hdir] at h
      obtain ⟨h1, _⟩ := Prod.mk.injEq .. ▸ Option.some.injEq .. ▸ h
      constructor
      · intro _; rw [← h1]
      · intro hfalse; rw [← h1] at hfalse; simp only at hfalse; rw [hdir] at hfalse; cases hfalse
    · rw [if_neg hdir] at h
      by_cases hneg : p.1.size < 0
      · rw [if_pos hneg] at h; simp at h
      · rw [if_neg hneg] at h
        cases htake : takeBytes p.1.size.toNat p.2 with
        | none => rw [htake] at h; simp at h
        | some q =>
          rw [htake] at h
          simp only [Option.some_bind, Option.some.injEq, Prod.mk.injEq] at h
          obtain ⟨h1, _⟩ := h
          have hlen : q.1.length = p.1.size.toNat := by
            cases hq : q with
            | mk c r' => rw [hq] at htake; exact takeBytes_some htake
          constructor
          · intro hd; rw [← h1] at hd; simp only at hd; exact absurd hd (by simp_all)
          · intro _
            rw [← h1]
            show p.1.size = ((q.1.length : Nat) : Int)
            rw [hlen]
            omega

theorem decodeArchiveAux_wf :
    ∀ (fuel : Nat) (bs : List Nat) (es : List FileEntry),
      decodeArchiveAux fuel bs = .ok es → ∀ e ∈ es, entryWF e := by
  intro fuel
  induction fuel with
  | zero =>
    intro bs es h e he
    cases bs with
    | nil =>
      replace h : (Except.ok [] : Except TarErr (List FileEntry)) = Except.ok es := h
      cases h; simp at he
    | cons b bs' =>
      replace h : (Except.error TarErr.malformedArchive :
        Except TarErr (List FileEntry)) = Except.ok es := h
      cases h
  | succ f ih =>
    intro bs es h e he
    cases bs with
    | nil =>
      replace h : (Except.ok [] : Except TarErr (List FileEntry)) = Except.ok es := h
      cases h; simp at he
    | cons b bs' =>
      replace h : (match decodeEntry (b :: bs') with
          | none => Except.error TarErr.malformedArchive
          | some (e', rest') =>
            match decodeArchiveAux f rest' with
            | .ok es' => Except.ok (e' :: es')
            | .error er => Except.error er) = Except.ok es := h
      cases hdec : decodeEntry (b :: bs') with
      | none => rw [hdec] at h; cases h
      | some p =>
        obtain ⟨e', rest'⟩ := p
        rw [hdec] at h
        replace h : (match decodeArchiveAux f rest' with
            | .ok es' => Except.ok (e' :: es')
            | .error er => Except.error er) = Except.ok es := h
        cases hrec : decodeArchiveAux f rest' with
        | error er => rw [hrec] at h; cases h
        | ok es' =>
          rw [hrec] at h
          cases h
          rcases List.mem_cons.mp he with h1 | h1
          · subst h1
            exact decodeEntry_wf hdec
          · exact ih rest' es' hrec e h1

theorem decodeArchive_wf {bs : List Nat} {es : List FileEntry}
    (h : decodeArchive bs = .ok es) : ∀ e ∈ es, entryWF e :=
  decodeArchiveAux_wf bs.length bs es h

theorem fixSize_of_wf {e : FileEntry} (hwf : entryWF e) : fixSize e = e := by
  unfold fixSize
  cases hdir : e.header.isDir with
  | true => simp
  | false =>
    have hsz := hwf.2 hdir
    simp only [Bool.false_eq_true, if_false]
    cases e with
    | mk hd ct =>
      cases hd with
      | mk nm tf md u g sz mt => simp_all

theorem fixSize_wf {e : FileEntry} (hdirOK : e.header.isDir = true → e.content = []) :
    entryWF (fixSize e) := by
  cases hdir : e.header.isDir with
  | true =>
    have hfix : fixSize e = e := by unfold fixSize; rw [if_pos hdir]
    rw [hfix]
    constructor
    · intro _; exact hdirOK hdir
    · intro hfalse; rw [hdir] at hfalse; cases hfalse
  | false =>
    have hfix : fixSize e =
        { e with header := { e.header with size := (e.content.length : Int) } } := by
      unfold fixSize; rw [if_neg (by rw [hdir]; simp)]
    rw [hfix]
    constructor
    · intro hd
      have h2 : e.header.isDir = true := hd
      rw [hdir] at h2; cases h2
    · intro _; rfl

/-! ## Codec Adapter (`wrapCompressionWriter` / `wrapCompressionReader`)

The external compression libraries are modelled as reversible
tag-prefixing stream transforms: what matters to the engine is which
codec each algorithm string selects, that each codec round-trips, and
that a mismatched or absent codec fails to read.  The selection logic
below is translated switch-case for switch-case from main.go 50-156. -/

/-- The closed enumeration of stream codecs the adapter can return. -/
inductive Codec where
  | gzip | zlib | bzip2 | s2 | zstd | lzma | lz4 | xz | brotli
deriving DecidableEq

/-- Distinct stream tag of each codec. -/
def codecTag : Codec → Nat
  | .gzip => 1
  | .zlib => 2
  | .bzip2 => 3
  | .s2 => 4
  | .zstd => 5
  | .lzma => 6
  | .lz4 => 7
  | .xz => 8
  | .brotli => 9

/-- The transform applied by a codec's write side (model of the external
compressor: tag the stream). -/
def codecCompress (c : Codec) (data : List Nat) : List Nat := codecTag c :: data

/-- The transform applied by a codec's read side: accept only a stream
produced by the same codec. -/
def codecDecompress (c : Codec) (data : List Nat) : Except TarErr (List Nat) :=
  match data with
  | [] => .error .codecError
  | t :: rest => if t = codecTag c then .ok rest else .error .codecError

/-- Model of `wrapCompressionWriter` (main.go 50-125): select the write
codec by the algorithm string; every unrecognised string - including the
empty one - falls through to the `default` branch, which builds a brotli
writer.  The level argument only tunes the external codecs, which the
model abstracts away. -/
def wrapCompressionWriter (algorithm : GoStr) (_level : Int) : Except TarErr Codec :=
  if algorithm = "gzip".toList then .ok .gzip
  else if algorithm = "zlib".toList then .ok .zlib
  else if algorithm = "bzip2".toList then .ok .bzip2
  else if algorithm = "s2".toList then .ok .s2
  else if algorithm = "zstd".toList then .ok .zstd
  else if algorithm = "lzma".toList then .ok .lzma
  else if algorithm = "lz4".toList then .ok .lz4
  else if algorithm = "xz".toList then .ok .xz
  else .ok .brotli

/-- Model of `wrapCompressionReader` (main.go 127-156): select the read
codec by the algorithm string; an unrecognised string - including the
empty one - returns the `unsupported compression algorithm` error. -/
def wrapCompressionReader (algorithm : GoStr) : Except TarErr Codec :=
  if algorithm = "gzip".toList then .ok .gzip
  else if algorithm = "zlib".toList then .ok .zlib
  else if algorithm = "brotli".toList then .ok .brotli
  else if algorithm = "bzip2".toList then .ok .bzip2
  else if algorithm = "xz".toList then .ok .xz
  else if algorithm = "lzma".toList then .ok .lzma
  else if algorithm = "lz4".toList then .ok .lz4
  else if algorithm = "zstd".toList then .ok .zstd
  else if algorithm = "s2".toList then .ok .s2
  else .error .codecError

theorem codecDecompress_codecCompress (c : Codec) (data : List Nat) :
    codecDecompress c (codecCompress c data) = .ok data := by
  unfold codecDecompress codecCompress
  simp

/-! ## The in-memory archive map

Go's `map[string]*FileEntry` is modelled as an association list with
unique keys; insertion replaces the entry stored under an existing key
and appends a new key.  Only the key set and the key-to-entry mapping
are observable: the engine reads the map exclusively through
`sortedKeys` and indexing. -/

/-- One insert `m[k] = v` into the modelled map. -/
def mapInsert (m : List (GoStr × FileEntry)) (k : GoStr) (v : FileEntry) :
    List (GoStr × FileEntry) :=
  if m.any (fun p => p.1 = k) then
    m.map (fun p => if p.1 = k then (k, v) else p)
  else m ++ [(k, v)]

/-- Build the map of the read loops: `fileData[header.Name] = &FileEntry{...}`
for each decoded entry in stream order. -/
def buildMap (es : List FileEntry) : List (GoStr × FileEntry) :=
  es.foldl (fun m e => mapInsert m e.header.name e) []

/-- Map lookup `m[name]`. -/
def mapFind (m : List (GoStr × FileEntry)) (k : GoStr) : Option FileEntry :=
  (m.find? (fun p => p.1 = k)).map (fun p => p.2)

/-- Model of `sortedKeys` (main.go 1277-1294): collect the map's keys and
sort them with `sort.SliceStable` under the segment-wise path comparator.
`List.insertionSort` realises the `sort.SliceStable` contract: the result
is a stable permutation that is pairwise non-descending under the
comparator. -/
def sortedKeys (m : List (GoStr × FileEntry)) : List GoStr :=
  List.insertionSort keyOrder (m.map (fun p => p.1))

/-! ## Collision Resolver (`findDuplicateFile`, `addNumericSuffix`) -/

/-- The loop body of `findDuplicateFile` (main.go 710-741) over the
decoded archive members: an exact name match is a duplicate; otherwise a
member whose name extends `base_` is a duplicate when the substring
between `base_` and the extension parses with `strconv.Atoi`.  The
substring expression `header.Name[len(name)+1 : len(header.Name)-len(ext)]`
carries Go's run-time bounds check. -/
def findDuplicateLoop (filename : GoStr) : List FileEntry → Except GoPanic Bool
  | [] => .ok false
  | e :: rest =>
    if e.header.name = filename then .ok true
    else
      let ext := goExt filename
      let base := filename.take (filename.length - ext.length)
      if (base ++ ['_']).isPrefixOf e.header.name then
        match goSlice e.header.name ((base.length : Int) + 1)
            ((e.header.name.length : Int) - (ext.length : Int)) with
        | .error p => .error p
        | .ok suffix =>
          if (goAtoi suffix).isSome then .ok true
          else findDuplicateLoop filename rest
      else findDuplicateLoop filename rest

/-- Model of `findDuplicateFile(filename)` (main.go 710-741) run against
an already-decoded archive: scan the members in order, returning at the
first duplicate; a slice-bounds violation aborts the scan as a Go panic. -/
def findDuplicateFile (archive : List FileEntry) (filename : GoStr) : Except GoPanic Bool :=
  findDuplicateLoop filename archive

/-- The retry loop of `addNumericSuffix` (main.go 166-180), with fuel:
each archive member can block at most two candidate names (one by exact
match, one by prefix-and-suffix match), so `2 * |archive| + 2` iterations
always reach a free name; `none` marks exhausted fuel and is unreachable
from `addNumericSuffix`. -/
def addNumericSuffixLoop (archive : List FileEntry) (base ext : GoStr) :
    Nat → Nat → GoStr → Except GoPanic (Option GoStr)
  | 0, _, _ => .ok none
  | fuel + 1, count, newName =>
    match findDuplicateFile archive newName with
    | .error p => .error p
    | .ok false => .ok (some newName)
    | .ok true =>
      addNumericSuffixLoop archive base ext fuel (count + 1)
        (base ++ '_' :: (natToDigits (count + 1) ++ ext))

/-- Model of `addNumericSuffix(filename)` (main.go 166-180): probe
`filename`, then `base_1<ext>`, `base_2<ext>`, ... until
`findDuplicateFile` reports no duplicate. -/
def addNumericSuffix (archive : List FileEntry) (filename : GoStr) :
    Except GoPanic (Option GoStr) :=
  let ext := goExt filename
  let base := filename.take (filename.length - ext.length)
  addNumericSuffixLoop archive base ext (2 * archive.length + 2) 0 filename

/-! ## The mutation operations

Each operation is a function from the archive file's on-disk state (its
bytes and permission mode) to a result and the new state.  Every failure
path of the Go code `return`s before the `Truncate`/`Seek`/`WriteTo`
commit sequence, which the model reflects by returning the input state
unchanged alongside the error. -/

/-- On-disk state of the archive file. -/
structure FS where
  contents : List Nat
  mode : Nat
deriving DecidableEq

/-- The per-entry deletion test of `deleteFromTarball` (main.go 907-914):
a pattern deletes a member when `filepath.Match` reports a match (its
error is discarded: `matched, _ := filepath.Match(...)`), or when the
member name starts with the pattern, trailing slash trimmed, plus `/`. -/
def shouldDeleteName (filesToDelete : List GoStr) (name : GoStr) : Bool :=
  filesToDelete.any fun pattern =>
    (match goMatch pattern name with
     | .ok b => b
     | .error _ => false)
    || (trimSuffixSlash pattern ++ ['/']).isPrefixOf name

/-- The read phase shared by the mutation operations: wrap the stream in
the selected decompressor when `-z` is active, then run the `tr.Next()`
loop. -/
def readTarStream (compress : Bool) (algorithm : GoStr) (bs : List Nat) :
    Except TarErr (List FileEntry) :=
  if compress then
    match wrapCompressionReader algorithm with
    | .error e => .error e
    | .ok c =>
      match codecDecompress c bs with
      | .error e => .error e
      | .ok raw => decodeArchive raw
  else decodeArchive bs

/-- The write loop shared by the mutation operations (e.g. main.go
1110-1125): for each sorted name, fetch the entry, recompute the size of
a non-directory from its content length, and write header plus content. -/
def writeSortedEntries (m : List (GoStr × FileEntry)) :
    List GoStr → Except TarErr (List Nat)
  | [] => .ok []
  | n :: rest =>
    match mapFind m n with
    | none => .error .writeError
    | some e =>
      match writeEntry (fixSize e) with
      | .error er => .error er
      | .ok bs =>
        match writeSortedEntries m rest with
        | .error er => .error er
        | .ok bss => .ok (bs ++ bss)

/-- The rebuild-into-buffer phase: create the compression writer when
`-z` is active, write the sorted entries, and close the writers. -/
def renderSorted (compress : Bool) (algorithm : GoStr) (level : Int)
    (m : List (GoStr × FileEntry)) : Except TarErr (List Nat) :=
  if compress then
    match wrapCompressionWriter algorithm level with
    | .error e => .error e
    | .ok c =>
      match writeSortedEntries m (sortedKeys m) with
      | .error e => .error e
      | .ok raw => .ok (codecCompress c raw)
  else writeSortedEntries m (sortedKeys m)

/-- Model of `deleteFromTarball` (main.go 878-991): decode, drop every
member some pattern deletes, rebuild the rest sorted, and only then
replace the file's contents.  (`deleteFromTarball` has no `Chmod` call;
truncating and rewriting the open handle keeps the mode.) -/
def deleteFromTarball (compress : Bool) (algorithm : GoStr) (level : Int)
    (fs : FS) (filesToDelete : List GoStr) : Except TarErr Unit × FS :=
  match readTarStream compress algorithm fs.contents with
  | .error e => (.error e, fs)
  | .ok entries =>
    let kept := entries.filter (fun e => !(shouldDeleteName filesToDelete e.header.name))
    let fileData := buildMap kept
    match renderSorted compress algorithm level fileData with
    | .error e => (.error e, fs)
    | .ok buffer => (.ok (), { contents := buffer, mode := fs.mode })

/-- Model of `updateTarball` (main.go 993-1153): decode the existing
members into the map, overwrite or insert each walked file under its
name, rebuild sorted, commit, and restore the original mode.  The files
gathered by glob and `filepath.Walk` enter the model as ready-made
entries. -/
def updateTarball (compress : Bool) (algorithm : GoStr) (level : Int)
    (fs : FS) (filesToAdd : List FileEntry) : Except TarErr Unit × FS :=
  match readTarStream compress algorithm fs.contents with
  | .error e => (.error e, fs)
  | .ok entries =>
    let existingFiles :=
      filesToAdd.foldl (fun m e => mapInsert m e.header.name e) (buildMap entries)
    match renderSorted compress algorithm level existingFiles with
    | .error e => (.error e, fs)
    | .ok buffer => (.ok (), { contents := buffer, mode := fs.mode })

/-- Model of `reorganizeTarball` (main.go 1160-1275): decode all members,
rebuild them in canonical sorted order, commit, and restore the original
mode. -/
def reorganizeTarball (compress : Bool) (algorithm : GoStr) (level : Int)
    (fs : FS) : Except TarErr Unit × FS :=
  match readTarStream compress algorithm fs.contents with
  | .error e => (.error e, fs)
  | .ok entries =>
    let fileData := buildMap entries
    match renderSorted compress algorithm level fileData with
    | .error e => (.error e, fs)
    | .ok buffer => (.ok (), { contents := buffer, mode := fs.mode })

/-! ## Properties of `fixSize`, the map, and `sortedKeys` -/

theorem fixSize_name (e : FileEntry) : (fixSize e).header.name = e.header.name := by
  unfold fixSize
  by_cases h : e.header.isDir <;> simp [h]

theorem fixSize_isDir (e : FileEntry) : (fixSize e).header.isDir = e.header.isDir := by
  unfold fixSize
  by_cases h : e.header.isDir
  · rw [if_pos h]
  · rw [if_neg h]
    simp [Header.isDir]

theorem fixSize_content (e : FileEntry) : (fixSize e).content = e.content := by
  unfold fixSize
  by_cases h : e.header.isDir <;> simp [h]

theorem fixSize_idem (e : FileEntry) : fixSize (fixSize e) = fixSize e := by
  unfold fixSize
  by_cases h : e.header.isDir
  · simp [h]
  · simp only [if_neg h]
    have h2 : ({ e with header := { e.header with size := (e.content.length : Int) }}
        : FileEntry).header.isDir = e.header.isDir := by
      simp [Header.isDir]
    rw [if_neg (h2 ▸ h)]

/-- Keys of the map. -/
def mapKeys (m : List (GoStr × FileEntry)) : List GoStr := m.map (fun p => p.1)

theorem mapKeys_mapInsert_mem {m : List (GoStr × FileEntry)} {k : GoStr} (v : FileEntry)
    (h : m.any (fun p => p.1 = k) = true) : mapKeys (mapInsert m k v) = mapKeys m := by
  unfold mapInsert mapKeys
  rw [if_pos h, List.map_map]
  apply List.map_congr_left
  intro p _
  by_cases hp : p.1 = k <;> simp [hp]

theorem mapKeys_mapInsert_new {m : List (GoStr × FileEntry)} {k : GoStr} (v : FileEntry)
    (h : ¬ m.any (fun p => p.1 = k) = true) :
    mapKeys (mapInsert m k v) = mapKeys m ++ [k] := by
  unfold mapInsert mapKeys
  rw [if_neg h]
  simp

theorem mem_mapKeys_mapInsert {m : List (GoStr × FileEntry)} {k k' : GoStr} (v : FileEntry) :
    k' ∈ mapKeys (mapInsert m k v) ↔ k' ∈ mapKeys m ∨ k' = k := by
  by_cases h : m.any (fun p => p.1 = k) = true
  · rw [mapKeys_mapInsert_mem v h]
    constructor
    · intro h1; exact Or.inl h1
    · rintro (h1 | h1)
      · exact h1
      · subst h1
        simp only [List.any_eq_true] at h
        obtain ⟨p, hp, hpk⟩ := h
        simp only [decide_eq_true_eq] at hpk
        unfold mapKeys
        exact List.mem_map.mpr ⟨p, hp, hpk⟩
  · rw [mapKeys_mapInsert_new v h]
    simp

theorem mapFind_mapInsert_self (m : List (GoStr × FileEntry)) (k : GoStr) (v : FileEntry) :
    mapFind (mapInsert m k v) k = some v := by
  unfold mapFind mapInsert
  by_cases h : m.any (fun p => p.1 = k) = true
  · rw [if_pos h]
    simp only [List.any_eq_true, decide_eq_true_eq] at h
    induction m with
    | nil => obtain ⟨q, hq, _⟩ := h; exact absurd hq (List.not_mem_nil q)
    | cons p rest ih =>
      by_cases hp : p.1 = k
      · simp [List.find?_cons, hp]
      · simp only [List.map_cons, if_neg hp]
        rw [List.find?_cons_of_neg _ (by simpa using hp)]
        apply ih
        rcases h with ⟨q, hq, hqk⟩
        rcases List.mem_cons.mp hq with h1 | h1
        · exact absurd (h1 ▸ hqk) hp
        · exact ⟨q, h1, hqk⟩
  · rw [if_neg h]
    simp only [List.any_eq_true, decide_eq_true_eq] at h
    push_neg at h
    induction m with
    | nil => simp [List.find?_cons]
    | cons p rest ih =>
      rw [List.cons_append, List.find?_cons_of_neg _ (by simpa using h p (by simp))]
      exact ih (fun q hq => h q (by simp [hq]))

theorem mapFind_mapInsert_ne (m : List (GoStr × FileEntry)) {k k' : GoStr} (v : FileEntry)
    (hne : k' ≠ k) : mapFind (mapInsert m k v) k' = mapFind m k' := by
  unfold mapFind mapInsert
  by_cases h : m.any (fun p => p.1 = k) = true
  · rw [if_pos h]
    clear h
    induction m with
    | nil => simp
    | cons p rest ih =>
      by_cases hp : p.1 = k
      · rw [List.map_cons, if_pos hp]
        rw [List.find?_cons_of_neg _ (by simpa using fun h2 => hne h2.symm),
          List.find?_cons_of_neg _ (by simpa [hp] using fun h2 => hne h2.symm)]
        exact ih
      · rw [List.map_cons, if_neg hp]
        by_cases hk' : p.1 = k'
        · rw [List.find?_cons_of_pos _ (by simpa using hk'),
            List.find?_cons_of_pos _ (by simpa using hk')]
        · rw [List.find?_cons_of_neg _ (by simpa using hk'),
            List.find?_cons_of_neg _ (by simpa using hk')]
          exact ih
  · rw [if_neg h]
    induction m with
    | nil => simp [List.find?_cons, Ne.symm hne]
    | cons p rest ih =>
      by_cases hk' : p.1 = k'
      · rw [List.cons_append, List.find?_cons_of_pos _ (by simpa using hk'),
          List.find?_cons_of_pos _ (by simpa using hk')]
      · rw [List.cons_append, List.find?_cons_of_neg _ (by simpa using hk'),
          List.find?_cons_of_neg _ (by simpa using hk')]
        exact ih (fun hr => h (by simp [List.any_cons, hr]))

/-- Key uniqueness invariant of the modelled map. -/
def nodupKeys (m : List (GoStr × FileEntry)) : Prop := (mapKeys m).Nodup

/-- Key/value consistency: each entry is stored under its own name. -/
def keysMatch (m : List (GoStr × FileEntry)) : Prop :=
  ∀ p ∈ m, p.2.header.name = p.1

theorem nodupKeys_mapInsert {m : List (GoStr × FileEntry)} (k : GoStr) (v : FileEntry)
    (h : nodupKeys m) : nodupKeys (mapInsert m k v) := by
  by_cases hmem : m.any (fun p => p.1 = k) = true
  · unfold nodupKeys
    rw [mapKeys_mapInsert_mem v hmem]
    exact h
  · unfold nodupKeys
    rw [mapKeys_mapInsert_new v hmem]
    rw [List.nodup_append]
    refine ⟨h, List.nodup_singleton k, ?_⟩
    intro a ha hk
    rw [List.mem_singleton] at hk
    subst hk
    unfold mapKeys at ha
    obtain ⟨p, hp, hpk⟩ := List.mem_map.mp ha
    exact hmem (List.any_eq_true.mpr ⟨p, hp, by simpa using hpk⟩)

theorem keysMatch_mapInsert {m : List (GoStr × FileEntry)} {k : GoStr} {v : FileEntry}
    (h : keysMatch m) (hv : v.header.name = k) : keysMatch (mapInsert m k v) := by
  unfold keysMatch mapInsert
  intro p hp
  by_cases hmem : m.any (fun q => q.1 = k) = true
  · rw [if_pos hmem] at hp
    obtain ⟨q, hq, hqp⟩ := List.mem_map.mp hp
    by_cases hqk : q.1 = k
    · rw [if_pos hqk] at hqp
      rw [← hqp]
      exact hv
    · rw [if_neg hqk] at hqp
      rw [← hqp]
      exact h q hq
  · rw [if_neg hmem] at hp
    rcases List.mem_append.mp hp with h1 | h1
    · exact h p h1
    · rw [List.mem_singleton] at h1
      rw [h1]
      exact hv

theorem valuesProp_mapInsert {P : FileEntry → Prop} {m : List (GoStr × FileEntry)}
    {k : GoStr} {v : FileEntry} (h : ∀ p ∈ m, P p.2) (hv : P v) :
    ∀ p ∈ mapInsert m k v, P p.2 := by
  unfold mapInsert
  intro p hp
  by_cases hmem : m.any (fun q => q.1 = k) = true
  · rw [if_pos hmem] at hp
    obtain ⟨q, hq, hqp⟩ := List.mem_map.mp hp
    by_cases hqk : q.1 = k
    · rw [if_pos hqk] at hqp; rw [← hqp]; exact hv
    · rw [if_neg hqk] at hqp; rw [← hqp]; exact h q hq
  · rw [if_neg hmem] at hp
    rcases List.mem_append.mp hp with h1 | h1
    · exact h p h1
    · rw [List.mem_singleton] at h1; rw [h1]; exact hv

/-- The fold underlying `buildMap` and the update loop. -/
def insertAll (m : List (GoStr × FileEntry)) (es : List FileEntry) :
    List (GoStr × FileEntry) :=
  es.foldl (fun acc e => mapInsert acc e.header.name e) m

theorem buildMap_eq_insertAll (es : List FileEntry) : buildMap es = insertAll [] es := rfl

theorem insertAll_cons (m : List (GoStr × FileEntry)) (e : FileEntry) (es : List FileEntry) :
    insertAll m (e :: es) = insertAll (mapInsert m e.header.name e) es := rfl

theorem nodupKeys_insertAll (es : List FileEntry) :
    ∀ (m : List (GoStr × FileEntry)), nodupKeys m → nodupKeys (insertAll m es) := by
  induction es with
  | nil => intro m h; exact h
  | cons e rest ih =>
    intro m h
    rw [insertAll_cons]
    exact ih _ (nodupKeys_mapInsert _ _ h)

theorem keysMatch_insertAll (es : List FileEntry) :
    ∀ (m : List (GoStr × FileEntry)), keysMatch m → keysMatch (insertAll m es) := by
  induction es with
  | nil => intro m h; exact h
  | cons e rest ih =>
    intro m h
    rw [insertAll_cons]
    exact ih _ (keysMatch_mapInsert h rfl)

theorem valuesProp_insertAll {P : FileEntry → Prop} (es : List FileEntry) :
    ∀ (m : List (GoStr × FileEntry)), (∀ p ∈ m, P p.2) → (∀ e ∈ es, P e) →
      ∀ p ∈ insertAll m es, P p.2 := by
  induction es with
  | nil => intro m h _; exact h
  | cons e rest ih =>
    intro m h hes
    rw [insertAll_cons]
    exact ih _ (valuesProp_mapInsert h (hes e (by simp)))
      (fun x hx => hes x (by simp [hx]))

theorem mem_mapKeys_insertAll (es : List FileEntry) :
    ∀ (m : List (GoStr × FileEntry)) (k : GoStr),
      k ∈ mapKeys (insertAll m es) ↔ k ∈ mapKeys m ∨ ∃ e ∈ es, e.header.name = k := by
  induction es with
  | nil => intro m k; simp [insertAll]
  | cons e rest ih =>
    intro m k
    rw [insertAll_cons, ih]
    rw [mem_mapKeys_mapInsert]
    constructor
    · rintro ((h1 | h1) | h1)
      · exact Or.inl h1
      · exact Or.inr ⟨e, by simp, h1.symm⟩
      · obtain ⟨x, hx, hxk⟩ := h1
        exact Or.inr ⟨x, by simp [hx], hxk⟩
    · rintro (h1 | h1)
      · exact Or.inl (Or.inl h1)
      · obtain ⟨x, hx, hxk⟩ := h1
        rcases List.mem_cons.mp hx with h2 | h2
        · subst h2; exact Or.inl (Or.inr hxk.symm)
        · exact Or.inr ⟨x, h2, hxk⟩

theorem nodupKeys_buildMap (es : List FileEntry) : nodupKeys (buildMap es) := by
  rw [buildMap_eq_insertAll]
  exact nodupKeys_insertAll es [] (by simp [nodupKeys, mapKeys])

theorem keysMatch_buildMap (es : List FileEntry) : keysMatch (buildMap es) := by
  rw [buildMap_eq_insertAll]
  exact keysMatch_insertAll es [] (by intro p hp; cases hp)

theorem valuesProp_buildMap {P : FileEntry → Prop} (es : List FileEntry)
    (hes : ∀ e ∈ es, P e) : ∀ p ∈ buildMap es, P p.2 := by
  rw [buildMap_eq_insertAll]
  exact valuesProp_insertAll es [] (by intro p hp; cases hp) hes

theorem mem_mapKeys_buildMap (es : List FileEntry) (k : GoStr) :
    k ∈ mapKeys (buildMap es) ↔ ∃ e ∈ es, e.header.name = k := by
  rw [buildMap_eq_insertAll, mem_mapKeys_insertAll]
  simp [mapKeys]

theorem insertAll_of_disjoint :
    ∀ (es : List FileEntry) (m : List (GoStr × FileEntry)),
      (es.map (fun e => e.header.name)).Nodup →
      (∀ e ∈ es, e.header.name ∉ mapKeys m) →
      insertAll m es = m ++ es.map (fun e => (e.header.name, e)) := by
  intro es
  induction es with
  | nil => intro m _ _; simp [insertAll]
  | cons e rest ih =>
    intro m hnd hdisj
    rw [insertAll_cons]
    have hnot : ¬ m.any (fun p => p.1 = e.header.name) = true := by
      intro hany
      obtain ⟨p, hp, hpk⟩ := List.any_eq_true.mp hany
      simp only [decide_eq_true_eq] at hpk
      exact hdisj e (by simp) (by unfold mapKeys; exact List.mem_map.mpr ⟨p, hp, hpk⟩)
    have hins : mapInsert m e.header.name e = m ++ [(e.header.name, e)] := by
      unfold mapInsert; rw [if_neg hnot]
    rw [hins]
    rw [ih (m ++ [(e.header.name, e)]) (by simpa using hnd.of_cons) ?_]
    · simp
    · intro x hx hmem
      unfold mapKeys at hmem
      rw [List.map_append] at hmem
      rcases List.mem_append.mp hmem with h1 | h1
      · exact hdisj x (by simp [hx]) h1
      · simp only [List.map_cons, List.map_nil, List.mem_singleton] at h1
        have hne : x.header.name ≠ e.header.name := by
          have h2 := List.nodup_cons.mp hnd
          intro heq
          exact h2.1 (List.mem_map.mpr ⟨x, hx, heq⟩)
        exact hne h1

theorem buildMap_of_nodup {es : List FileEntry}
    (h : (es.map (fun e => e.header.name)).Nodup) :
    buildMap es = es.map (fun e => (e.header.name, e)) := by
  rw [buildMap_eq_insertAll, insertAll_of_disjoint es [] h (by simp [mapKeys])]
  rw [List.nil_append]

theorem mapFind_eq_some {m : List (GoStr × FileEntry)} {k : GoStr} {v : FileEntry}
    (h : mapFind m k = some v) : ∃ p ∈ m, p.1 = k ∧ p.2 = v := by
  unfold mapFind at h
  cases hf : m.find? (fun p => p.1 = k) with
  | none => rw [hf] at h; cases h
  | some p =>
    rw [hf] at h
    simp only [Option.map_some', Option.some.injEq] at h
    refine ⟨p, List.mem_of_find?_eq_some hf, ?_, h⟩
    have := List.find?_some hf
    simpa using this

theorem mapFind_isSome_iff (m : List (GoStr × FileEntry)) (k : GoStr) :
    (mapFind m k).isSome ↔ k ∈ mapKeys m := by
  unfold mapFind mapKeys
  cases hf : m.find? (fun p => p.1 = k) with
  | none =>
    constructor
    · intro h; simp at h
    · intro hmem
      exfalso
      obtain ⟨p, hp, hpk⟩ := List.mem_map.mp hmem
      have h2 := List.find?_eq_none.mp hf p hp
      simp [hpk] at h2
  | some p =>
    constructor
    · intro _
      have h1 := List.find?_some hf
      simp only [decide_eq_true_eq] at h1
      exact List.mem_map.mpr ⟨p, List.mem_of_find?_eq_some hf, h1⟩
    · intro _; simp

/-- Default value used to model Go's map indexing of a present key. -/
def defaultEntry : FileEntry := ⟨⟨[], '0', 0, 0, 0, 0, 0⟩, []⟩

/-- The entry stored under a key (`fileData[name]` on a key produced by
`sortedKeys`, which is always present). -/
def mapEntryD (m : List (GoStr × FileEntry)) (n : GoStr) : FileEntry :=
  (mapFind m n).getD defaultEntry

theorem mapEntryD_of_some {m : List (GoStr × FileEntry)} {n : GoStr} {v : FileEntry}
    (h : mapFind m n = some v) : mapEntryD m n = v := by
  unfold mapEntryD; rw [h]; rfl

theorem mapEntryD_name {m : List (GoStr × FileEntry)} {n : GoStr}
    (hKM : keysMatch m) (hmem : n ∈ mapKeys m) : (mapEntryD m n).header.name = n := by
  have hsome := (mapFind_isSome_iff m n).mpr hmem
  obtain ⟨v, hv⟩ := Option.isSome_iff_exists.mp hsome
  rw [mapEntryD_of_some hv]
  obtain ⟨p, hp, hpk, hpv⟩ := mapFind_eq_some hv
  rw [← hpv, hKM p hp, hpk]

theorem mapEntryD_dirOK {m : List (GoStr × FileEntry)} {n : GoStr}
    (hdir : ∀ p ∈ m, p.2.header.isDir = true → p.2.content = []) :
    (mapEntryD m n).header.isDir = true → (mapEntryD m n).content = [] := by
  unfold mapEntryD
  cases hf : mapFind m n with
  | none => intro h; cases h
  | some v =>
    obtain ⟨p, hp, _, hpv⟩ := mapFind_eq_some hf
    simpa [hpv] using hdir p hp

theorem sortedKeys_perm (m : List (GoStr × FileEntry)) :
    (sortedKeys m).Perm (mapKeys m) :=
  List.perm_insertionSort keyOrder _

theorem sortedKeys_sorted (m : List (GoStr × FileEntry)) :
    List.Sorted keyOrder (sortedKeys m) :=
  List.sorted_insertionSort keyOrder _

theorem mem_sortedKeys (m : List (GoStr × FileEntry)) (k : GoStr) :
    k ∈ sortedKeys m ↔ k ∈ mapKeys m :=
  (sortedKeys_perm m).mem_iff

theorem sortedKeys_nodup {m : List (GoStr × FileEntry)} (h : nodupKeys m) :
    (sortedKeys m).Nodup :=
  ((sortedKeys_perm m).nodup_iff).mpr h

/-- The entry list a mutation operation writes back: the map's entries in
sorted key order, sizes recomputed. -/
def rebuiltEntries (m : List (GoStr × FileEntry)) : List FileEntry :=
  (sortedKeys m).map (fun n => fixSize (mapEntryD m n))

theorem entriesBytes_cons (e : FileEntry) (es : List FileEntry) :
    entriesBytes (e :: es) = entryBytes e ++ entriesBytes es := by
  simp [entriesBytes]

theorem writeSortedEntries_ok {m : List (GoStr × FileEntry)}
    (hdir : ∀ p ∈ m, p.2.header.isDir = true → p.2.content = []) :
    ∀ names : List GoStr, (∀ n ∈ names, n ∈ mapKeys m) →
      writeSortedEntries m names =
        .ok (entriesBytes (names.map (fun n => fixSize (mapEntryD m n)))) := by
  intro names
  induction names with
  | nil => intro _; rfl
  | cons n rest ih =>
    intro hmem
    have hn : n ∈ mapKeys m := hmem n (by simp)
    have hsome : (mapFind m n).isSome := (mapFind_isSome_iff m n).mpr hn
    obtain ⟨v, hv⟩ := Option.isSome_iff_exists.mp hsome
    have hdv : v.header.isDir = true → v.content = [] := by
      obtain ⟨p, hp, _, hpv⟩ := mapFind_eq_some hv
      simpa [hpv] using hdir p hp
    have hrest := ih (fun x hx => hmem x (by simp [hx]))
    simp only [writeSortedEntries, hv, writeEntry_ok_of_wf (fixSize_wf hdv), hrest,
      List.map_cons, entriesBytes_cons, mapEntryD_of_some hv]

/-- The codec the write switch selects for an algorithm string. -/
def writerCodec (algorithm : GoStr) : Codec :=
  if algorithm = "gzip".toList then .gzip
  else if algorithm = "zlib".toList then .zlib
  else if algorithm = "bzip2".toList then .bzip2
  else if algorithm = "s2".toList then .s2
  else if algorithm = "zstd".toList then .zstd
  else if algorithm = "lzma".toList then .lzma
  else if algorithm = "lz4".toList then .lz4
  else if algorithm = "xz".toList then .xz
  else .brotli

theorem wrapCompressionWriter_eq (algorithm : GoStr) (level : Int) :
    wrapCompressionWriter algorithm level = .ok (writerCodec algorithm) := by
  unfold wrapCompressionWriter writerCodec
  split_ifs <;> rfl

/-- Whenever the read switch recognises an algorithm, the write switch
selects the same codec (the write switch's `default` case covers
`brotli` itself). -/
theorem writerCodec_eq_of_reader {algorithm : GoStr} {c : Codec}
    (h : wrapCompressionReader algorithm = .ok c) : writerCodec algorithm = c := by
  unfold wrapCompressionReader at h
  unfold writerCodec
  split_ifs at h ⊢ <;> simp_all

/-- A stream rebuild never fails when every sorted key is present in the
map (always true for `sortedKeys` of the same map) and directory entries
carry no content; the buffer holds the rebuilt entries, compressed when
`-z` is active. -/
theorem renderSorted_ok (compress : Bool) (algorithm : GoStr) (level : Int)
    {m : List (GoStr × FileEntry)}
    (hdir : ∀ p ∈ m, p.2.header.isDir = true → p.2.content = []) :
    renderSorted compress algorithm level m =
      .ok (if compress then
            codecCompress (writerCodec algorithm) (entriesBytes (rebuiltEntries m))
          else entriesBytes (rebuiltEntries m)) := by
  have hw := writeSortedEntries_ok hdir (sortedKeys m)
    (fun n hn => (mem_sortedKeys m n).mp hn)
  unfold renderSorted
  cases compress with
  | false =>
    simp only [Bool.false_eq_true, if_false]
    exact hw
  | true =>
    simp [wrapCompressionWriter_eq, hw, rebuiltEntries]

theorem rebuiltEntries_wf {m : List (GoStr × FileEntry)}
    (hdir : ∀ p ∈ m, p.2.header.isDir = true → p.2.content = []) :
    ∀ e ∈ rebuiltEntries m, entryWF e := by
  intro e he
  obtain ⟨n, _, hne⟩ := List.mem_map.mp he
  rw [← hne]
  exact fixSize_wf (mapEntryD_dirOK hdir)

/-- Re-reading the stream a rebuild produced recovers exactly the rebuilt
entries, for the uncompressed path and for any algorithm the read switch
recognises. -/
theorem readTarStream_renderSorted {compress : Bool} {algorithm : GoStr} {c : Codec}
    {m : List (GoStr × FileEntry)}
    (hreader : compress = true → wrapCompressionReader algorithm = .ok c)
    (hdir : ∀ p ∈ m, p.2.header.isDir = true → p.2.content = []) :
    readTarStream compress algorithm
      (if compress then
        codecCompress (writerCodec algorithm) (entriesBytes (rebuiltEntries m))
      else entriesBytes (rebuiltEntries m)) = .ok (rebuiltEntries m) := by
  unfold readTarStream
  cases compress with
  | false =>
    simp only [Bool.false_eq_true, if_false]
    exact decodeArchive_entriesBytes (rebuiltEntries_wf hdir)
  | true =>
    have hr := hreader rfl
    simp [hr, writerCodec_eq_of_reader hr, codecDecompress_codecCompress,
      decodeArchive_entriesBytes (rebuiltEntries_wf hdir)]

/-! ## Operation-level helper lemmas -/

theorem readTarStream_wf {compress : Bool} {algorithm : GoStr} {bs : List Nat}
    {es : List FileEntry} (h : readTarStream compress algorithm bs = .ok es) :
    ∀ e ∈ es, entryWF e := by
  unfold readTarStream at h
  cases compress with
  | false =>
    simp only [Bool.false_eq_true, if_false] at h
    exact decodeArchive_wf h
  | true =>
    simp only [if_pos rfl] at h
    cases hr : wrapCompressionReader algorithm with
    | error e => rw [hr] at h; cases h
    | ok c =>
      rw [hr] at h
      replace h : (match codecDecompress c bs with
          | .error e => Except.error e
          | .ok raw => decodeArchive raw) = Except.ok es := h
      cases hd : codecDecompress c bs with
      | error e => rw [hd] at h; cases h
      | ok raw =>
        rw [hd] at h
        exact decodeArchive_wf h

theorem readTarStream_reader_ok {algorithm : GoStr} {bs : List Nat}
    {es : List FileEntry} (h : readTarStream true algorithm bs = .ok es) :
    ∃ c, wrapCompressionReader algorithm = .ok c := by
  unfold readTarStream at h
  simp only [if_pos rfl] at h
  cases hr : wrapCompressionReader algorithm with
  | error e => rw [hr] at h; cases h
  | ok c => exact ⟨c, rfl⟩

/-- First-hit lookup of a member by name in an entry list. -/
def entriesFind (es : List FileEntry) (n : GoStr) : Option FileEntry :=
  es.find? (fun e => e.header.name = n)

theorem entriesFind_mapped (m : List (GoStr × FileEntry)) (hKM : keysMatch m) :
    ∀ ks : List GoStr, (∀ k ∈ ks, k ∈ mapKeys m) →
      ∀ n, entriesFind (ks.map (fun k => fixSize (mapEntryD m k))) n =
        if n ∈ ks then some (fixSize (mapEntryD m n)) else none := by
  intro ks
  induction ks with
  | nil => intro _ n; simp [entriesFind]
  | cons k rest ih =>
    intro hks n
    have hname : (fixSize (mapEntryD m k)).header.name = k := by
      rw [fixSize_name]
      exact mapEntryD_name hKM (hks k (by simp))
    unfold entriesFind
    by_cases hkn : k = n
    · subst hkn
      rw [List.map_cons, List.find?_cons_of_pos _ (by simp [hname])]
      rw [if_pos (by simp)]
    · rw [List.map_cons, List.find?_cons_of_neg _ (by simp [hname, hkn])]
      have := ih (fun x hx => hks x (by simp [hx])) n
      unfold entriesFind at this
      rw [this]
      by_cases hn : n ∈ rest
      · rw [if_pos hn, if_pos (by simp [hn])]
      · rw [if_neg hn, if_neg (by
          simp only [List.mem_cons, not_or]
          exact ⟨fun h => hkn h.symm, hn⟩)]

theorem entriesFind_rebuilt {m : List (GoStr × FileEntry)} (hKM : keysMatch m) (n : GoStr) :
    entriesFind (rebuiltEntries m) n = (mapFind m n).map fixSize := by
  unfold rebuiltEntries
  rw [entriesFind_mapped m hKM (sortedKeys m) (fun k hk => (mem_sortedKeys m k).mp hk) n]
  by_cases hn : n ∈ sortedKeys m
  · rw [if_pos hn]
    have hsome : (mapFind m n).isSome :=
      (mapFind_isSome_iff m n).mpr ((mem_sortedKeys m n).mp hn)
    obtain ⟨v, hv⟩ := Option.isSome_iff_exists.mp hsome
    rw [mapEntryD_of_some hv, hv, Option.map_some']
  · rw [if_neg hn]
    have hnone : mapFind m n = none := by
      cases hf : mapFind m n with
      | none => rfl
      | some v =>
        exfalso
        apply hn
        rw [mem_sortedKeys]
        exact (mapFind_isSome_iff m n).mp (by rw [hf]; rfl)
    rw [hnone, Option.map_none']

theorem mapFind_pairs (es : List FileEntry) (n : GoStr) :
    mapFind (es.map (fun e => (e.header.name, e))) n = entriesFind es n := by
  induction es with
  | nil => simp [mapFind, entriesFind]
  | cons e rest ih =>
    unfold mapFind entriesFind
    by_cases he : e.header.name = n
    · rw [List.map_cons, List.find?_cons_of_pos _ (by simpa using he),
        List.find?_cons_of_pos _ (by simpa using he)]
      rfl
    · rw [List.map_cons, List.find?_cons_of_neg _ (by simpa using he),
        List.find?_cons_of_neg _ (by simpa using he)]
      exact ih

theorem rebuiltEntries_names {m : List (GoStr × FileEntry)} (hKM : keysMatch m) :
    (rebuiltEntries m).map (fun e => e.header.name) = sortedKeys m := by
  unfold rebuiltEntries
  rw [List.map_map]
  have : ∀ k ∈ sortedKeys m,
      ((fun e => e.header.name) ∘ fun n => fixSize (mapEntryD m n)) k = id k := by
    intro k hk
    show (fixSize (mapEntryD m k)).header.name = k
    rw [fixSize_name]
    exact mapEntryD_name hKM ((mem_sortedKeys m k).mp hk)
  rw [List.map_congr_left this, List.map_id]

/-- The property of the archive map needed by the rebuild lemmas:
directory members carry no content. -/
def dirValuesOK (m : List (GoStr × FileEntry)) : Prop :=
  ∀ p ∈ m, p.2.header.isDir = true → p.2.content = []

theorem dirValuesOK_buildMap {es : List FileEntry} (hwf : ∀ e ∈ es, entryWF e) :
    dirValuesOK (buildMap es) :=
  valuesProp_buildMap es (fun e he => (hwf e he).1)

/-- The buffer a successful rebuild of map `m` commits. -/
def committedBytes (compress : Bool) (algorithm : GoStr)
    (m : List (GoStr × FileEntry)) : List Nat :=
  if compress then codecCompress (writerCodec algorithm) (entriesBytes (rebuiltEntries m))
  else entriesBytes (rebuiltEntries m)

theorem renderSorted_committed (compress : Bool) (algorithm : GoStr) (level : Int)
    {m : List (GoStr × FileEntry)} (hdir : dirValuesOK m) :
    renderSorted compress algorithm level m = .ok (committedBytes compress algorithm m) :=
  renderSorted_ok compress algorithm level hdir

theorem reorganizeTarball_ok {compress : Bool} {algorithm : GoStr} (level : Int)
    {fs : FS} {entries : List FileEntry}
    (hread : readTarStream compress algorithm fs.contents = .ok entries) :
    reorganizeTarball compress algorithm level fs =
      (.ok (), ⟨committedBytes compress algorithm (buildMap entries), fs.mode⟩) := by
  unfold reorganizeTarball
  rw [hread]
  have hdir : dirValuesOK (buildMap entries) :=
    dirValuesOK_buildMap (readTarStream_wf hread)
  show (match renderSorted compress algorithm level (buildMap entries) with
    | Except.error e => (Except.error e, fs)
    | Except.ok buffer => (Except.ok (), { contents := buffer, mode := fs.mode })) =
    (Except.ok (), ⟨committedBytes compress algorithm (buildMap entries), fs.mode⟩)
  rw [renderSorted_committed compress algorithm level hdir]

theorem deleteFromTarball_ok {compress : Bool} {algorithm : GoStr} (level : Int)
    {fs : FS} {entries : List FileEntry} (filesToDelete : List GoStr)
    (hread : readTarStream compress algorithm fs.contents = .ok entries) :
    deleteFromTarball compress algorithm level fs filesToDelete =
      (.ok (), ⟨committedBytes compress algorithm
        (buildMap (entries.filter
          (fun e => !(shouldDeleteName filesToDelete e.header.name)))), fs.mode⟩) := by
  unfold deleteFromTarball
  rw [hread]
  have hdir : dirValuesOK (buildMap (entries.filter
      (fun e => !(shouldDeleteName filesToDelete e.header.name)))) :=
    dirValuesOK_buildMap (fun e he => readTarStream_wf hread e (List.mem_of_mem_filter he))
  show (match renderSorted compress algorithm level (buildMap (entries.filter
      (fun e => !(shouldDeleteName filesToDelete e.header.name)))) with
    | Except.error e => (Except.error e, fs)
    | Except.ok buffer => (Except.ok (), { contents := buffer, mode := fs.mode })) =
    (Except.ok (), ⟨committedBytes compress algorithm (buildMap (entries.filter
      (fun e => !(shouldDeleteName filesToDelete e.header.name)))), fs.mode⟩)
  rw [renderSorted_committed compress algorithm level hdir]

theorem updateTarball_ok {compress : Bool} {algorithm : GoStr} (level : Int)
    {fs : FS} {entries : List FileEntry} {filesToAdd : List FileEntry}
    (hread : readTarStream compress algorithm fs.contents = .ok entries)
    (hdirAdd : ∀ e ∈ filesToAdd, e.header.isDir = true → e.content = []) :
    updateTarball compress algorithm level fs filesToAdd =
      (.ok (), ⟨committedBytes compress algorithm
        (insertAll (buildMap entries) filesToAdd), fs.mode⟩) := by
  unfold updateTarball
  rw [hread]
  have hdir : dirValuesOK (insertAll (buildMap entries) filesToAdd) :=
    valuesProp_insertAll filesToAdd (buildMap entries)
      (fun p hp => dirValuesOK_buildMap (readTarStream_wf hread) p hp) hdirAdd
  show (match renderSorted compress algorithm level
      (insertAll (buildMap entries) filesToAdd) with
    | Except.error e => (Except.error e, fs)
    | Except.ok buffer => (Except.ok (), { contents := buffer, mode := fs.mode })) =
    (Except.ok (), ⟨committedBytes compress algorithm
      (insertAll (buildMap entries) filesToAdd), fs.mode⟩)
  rw [renderSorted_committed compress algorithm level hdir]

theorem readTarStream_committedBytes {compress : Bool} {algorithm : GoStr}
    {bs0 : List Nat} {es0 : List FileEntry}
    (hread : readTarStream compress algorithm bs0 = .ok es0)
    {m : List (GoStr × FileEntry)} (hdir : dirValuesOK m) :
    readTarStream compress algorithm (committedBytes compress algorithm m) =
      .ok (rebuiltEntries m) := by
  cases hc : compress with
  | false =>
    exact @readTarStream_renderSorted false algorithm Codec.brotli m
      (by intro h; cases h) hdir
  | true =>
    obtain ⟨c, hcod⟩ := readTarStream_reader_ok (hc ▸ hread)
    exact @readTarStream_renderSorted true algorithm c m (fun _ => hcod) hdir

/-! ## Claim C2 -/

theorem updateTarball_error_frame {compress : Bool} {algorithm : GoStr} {level : Int}
    {fs fs' : FS} {filesToAdd : List FileEntry} {er : TarErr}
    (h : updateTarball compress algorithm level fs filesToAdd = (.error er, fs')) :
    fs' = fs := by
  unfold updateTarball at h
  cases hr : readTarStream compress algorithm fs.contents with
  | error e =>
    rw [hr] at h
    injection h with h1 h2
    exact h2.symm
  | ok entries =>
    rw [hr] at h
    replace h : (match renderSorted compress algorithm level
        (insertAll (buildMap entries) filesToAdd) with
      | Except.error e => ((Except.error e : Except TarErr Unit), fs)
      | Except.ok buffer => (Except.ok (), { contents := buffer, mode := fs.mode })) =
        (Except.error er, fs') := h
    cases hren : renderSorted compress algorithm level
        (insertAll (buildMap entries) filesToAdd) with
    | error e =>
      rw [hren] at h
      injection h with h1 h2
      exact h2.symm
    | ok buffer =>
      rw [hren] at h
      injection h with h1 h2
      cases h1

theorem deleteFromTarball_error_frame {compress : Bool} {algorithm : GoStr} {level : Int}
    {fs fs' : FS} {filesToDelete : List GoStr} {er : TarErr}
    (h : deleteFromTarball compress algorithm level fs filesToDelete = (.error er, fs')) :
    fs' = fs := by
  unfold deleteFromTarball at h
  cases hr : readTarStream compress algorithm fs.contents with
  | error e =>
    rw [hr] at h
    injection h with h1 h2
    exact h2.symm
  | ok entries =>
    rw [hr] at h
    replace h : (match renderSorted compress algorithm level
        (buildMap (entries.filter
          (fun e => !(shouldDeleteName filesToDelete e.header.name)))) with
      | Except.error e => ((Except.error e : Except TarErr Unit), fs)
      | Except.ok buffer => (Except.ok (), { contents := buffer, mode := fs.mode })) =
        (Except.error er, fs') := h
    cases hren : renderSorted compress algorithm level
        (buildMap (entries.filter
          (fun e => !(shouldDeleteName filesToDelete e.header.name)))) with
    | error e =>
      rw [hren] at h
      injection h with h1 h2
      exact h2.symm
    | ok buffer =>
      rw [hren] at h
      injection h with h1 h2
      cases h1

theorem reorganizeTarball_error_frame {compress : Bool} {algorithm : GoStr} {level : Int}
    {fs fs' : FS} {er : TarErr}
    (h : reorganizeTarball compress algorithm level fs = (.error er, fs')) :
    fs' = fs := by
  unfold reorganizeTarball at h
  cases hr : readTarStream compress algorithm fs.contents with
  | error e =>
    rw [hr] at h
    injection h with h1 h2
    exact h2.symm
  | ok entries =>
    rw [hr] at h
    replace h : (match renderSorted compress algorithm level (buildMap entries) with
      | Except.error e => ((Except.error e : Except TarErr Unit), fs)
      | Except.ok buffer => (Except.ok (), { contents := buffer, mode := fs.mode })) =
        (Except.error er, fs') := h
    cases hren : renderSorted compress algorithm level (buildMap entries) with
    | error e =>
      rw [hren] at h
      injection h with h1 h2
      exact h2.symm
    | ok buffer =>
      rw [hren] at h
      injection h with h1 h2
      cases h1

/-- C2: for every mutation operation (update, delete, reorganize), any
error raised while decoding, planning or encoding into the in-memory
buffer - that is, anywhere before the truncate-and-write commit step -
makes the operation return the failure with the archive file's on-disk
bytes (and mode) unchanged. -/
theorem C2_failure_leaves_archive_unchanged (compress : Bool) (algorithm : GoStr)
    (level : Int) (fs fs' : FS) (er : TarErr) :
    (∀ filesToAdd, updateTarball compress algorithm level fs filesToAdd =
        (.error er, fs') → fs' = fs) ∧
    (∀ filesToDelete, deleteFromTarball compress algorithm level fs filesToDelete =
        (.error er, fs') → fs' = fs) ∧
    (reorganizeTarball compress algorithm level fs = (.error er, fs') → fs' = fs) :=
  ⟨fun _ h => updateTarball_error_frame h,
   fun _ h => deleteFromTarball_error_frame h,
   fun h => reorganizeTarball_error_frame h⟩

/-- Witness for C2: a one-byte garbage archive makes all three operations
fail during decode, and each leaves the file state it was given. -/
theorem C2_failure_leaves_archive_unchanged_witness :
    updateTarball false [] 4 ⟨[5], 420⟩ [] = (.error .malformedArchive, ⟨[5], 420⟩) ∧
    deleteFromTarball false [] 4 ⟨[5], 420⟩ [] = (.error .malformedArchive, ⟨[5], 420⟩) ∧
    reorganizeTarball false [] 4 ⟨[5], 420⟩ = (.error .malformedArchive, ⟨[5], 420⟩) ∧
    (⟨[5], 420⟩ : FS) = ⟨[5], 420⟩ := by
  refine ⟨by rfl, by rfl, by rfl, ?_⟩
  exact (C2_failure_leaves_archive_unchanged false [] 4 ⟨[5], 420⟩ ⟨[5], 420⟩
    .malformedArchive).2.2 (by rfl)

/-! ## Claim C4 -/

/-- C4 counterexample: with no algorithm selected (`*algorithm == ""`),
the Codec Adapter is not a pair of identity transforms: the reader
constructor returns the `unsupported compression algorithm` error, and
the writer constructor falls into the `default` branch and returns a
brotli writer, which does not pass bytes through unchanged. -/
theorem C4_no_algorithm_counterexample :
    wrapCompressionReader [] = .error .codecError ∧
    wrapCompressionWriter [] 4 = .ok .brotli ∧
    codecCompress .brotli [7] ≠ [7] := by
  refine ⟨by rfl, by rfl, by simp [codecCompress]⟩

/-- C4 amended: for every algorithm string outside the nine recognised
names - in particular the empty string of an unselected algorithm -
`wrapCompressionReader` fails with the unsupported-algorithm error while
`wrapCompressionWriter` silently returns the brotli writer from its
`default` branch, whose transform is never the identity.  Pass-through
behaviour exists only in the callers, which skip the adapter entirely
when compression is off. -/
theorem C4_no_algorithm_amended (algorithm : GoStr)
    (h : algorithm ∉ ["gzip".toList, "zlib".toList, "brotli".toList, "bzip2".toList,
      "xz".toList, "lzma".toList, "lz4".toList, "zstd".toList, "s2".toList])
    (level : Int) :
    wrapCompressionReader algorithm = .error .codecError ∧
    wrapCompressionWriter algorithm level = .ok .brotli ∧
    ∀ data : List Nat, codecCompress .brotli data ≠ data := by
  refine ⟨?_, ?_, ?_⟩
  · unfold wrapCompressionReader
    split_ifs <;> simp_all
  · unfold wrapCompressionWriter
    split_ifs <;> simp_all
  · intro data heq
    have hlen := congrArg List.length heq
    simp [codecCompress] at hlen

/-- Witness for C4 amended, at the empty algorithm string. -/
theorem C4_no_algorithm_amended_witness :
    wrapCompressionReader [] = .error .codecError ∧
    wrapCompressionWriter [] 4 = .ok .brotli ∧
    ∀ data : List Nat, codecCompress .brotli data ≠ data :=
  C4_no_algorithm_amended [] (by decide) 4

/-! ## Claim C10 -/

/-- C10: the suffix-extraction slice of `findDuplicateFile` is not total:
probing `report.txt` against an archive whose member is named
`report_x` evaluates `header.Name[7:4]`, whose lower bound exceeds its
upper bound, so the Go run time panics with a slice-bounds violation and
the duplicate check aborts. -/
theorem C10_slice_bounds_panic :
    findDuplicateFile [⟨⟨"report_x".toList, '0', 420, 0, 0, 0, 0⟩, []⟩]
      "report.txt".toList = .error .sliceBounds := by
  rfl

/-! ## Claim C5 -/

/-- The duplicate test the `findDuplicateFile` loop applies to a single
member (the code's actual per-member predicate, panic cases excluded). -/
def goCollides (filename : GoStr) (e : FileEntry) : Bool :=
  decide (e.header.name = filename) ||
  ((filename.take (filename.length - (goExt filename).length) ++ ['_']).isPrefixOf
      e.header.name &&
    (match goSlice e.header.name
        (((filename.take (filename.length - (goExt filename).length)).length : Int) + 1)
        ((e.header.name.length : Int) - ((goExt filename).length : Int)) with
     | .ok suffix => (goAtoi suffix).isSome
     | .error _ => false))

/-- The collision predicate in the spec's words (for comparison with the
code): an exact name match, or a member of the exact shape
`base_<suffix><ext>` whose suffix parses as a non-negative integer. -/
def specCollides (filename memberName : GoStr) : Prop :=
  memberName = filename ∨
  ∃ suffix : GoStr,
    memberName =
      (filename.take (filename.length - (goExt filename).length)) ++
        '_' :: (suffix ++ goExt filename) ∧
    ∃ k : Int, goAtoi suffix = some k ∧ 0 ≤ k

/-- C5 counterexample: probing `report.txt` against an archive whose one
member is `report_1.foo` makes the code report a collision (the slice
between `base_` and the last four bytes is `"1"`, which `Atoi` accepts),
but the member does not have the claimed form `base_<int><ext>` - its
extension is `.foo`, not `.txt` - so the claim's predicate is false. -/
theorem C5_signed_suffix_counterexample :
    findDuplicateFile [⟨⟨"report_1.foo".toList, '0', 420, 0, 0, 0, 0⟩, []⟩]
        "report.txt".toList = .ok true ∧
    ¬ specCollides "report.txt".toList "report_1.foo".toList := by
  constructor
  · rfl
  · intro hspec
    rcases hspec with h1 | ⟨sfx, heq, k, hk, hpos⟩
    · exact absurd h1 (by decide)
    · have hbase : List.take (List.length "report.txt".toList -
          List.length (goExt "report.txt".toList)) "report.txt".toList =
          "report".toList := rfl
      have hext : goExt "report.txt".toList = ".txt".toList := rfl
      rw [hbase, hext] at heq
      rcases sfx with _ | ⟨c, rest⟩
      · exact absurd heq (by decide)
      · rcases rest with _ | ⟨d, rest2⟩
        · have h9 := congrArg (fun l => l.drop 9) heq
          have h9' : (['f', 'o', 'o'] : GoStr) = ['t', 'x', 't'] := h9
          exact absurd h9' (by decide)
        · have hlen := congrArg List.length heq
          simp only [List.length_append, List.length_cons] at hlen
          rw [show List.length "report_1.foo".toList = 12 from rfl,
            show List.length "report".toList = 6 from rfl,
            show List.length ".txt".toList = 4 from rfl] at hlen
          omega

/-- C5 amended: when the scan completes without a slice-bounds panic, the
check reports a collision iff some member matches the proposed name
exactly, or some member's name extends `base_` and the byte range from
position `len(base)+1` to position `len(member)-len(ext)` parses with
`strconv.Atoi` - which also accepts signed integers and never verifies
that the member actually ends in `ext`. -/
theorem C5_collision_characterisation (archive : List FileEntry) (filename : GoStr)
    (b : Bool) (h : findDuplicateFile archive filename = .ok b) :
    b = true ↔ ∃ e ∈ archive, goCollides filename e = true := by
  unfold findDuplicateFile at h
  induction archive generalizing b with
  | nil =>
    replace h : (Except.ok false : Except GoPanic Bool) = .ok b := h
    cases h
    simp
  | cons e rest ih =>
    replace h : (if e.header.name = filename then (Except.ok true : Except GoPanic Bool)
      else
        if ((filename.take (filename.length - (goExt filename).length)) ++ ['_']).isPrefixOf
            e.header.name then
          match goSlice e.header.name
              (((filename.take (filename.length - (goExt filename).length)).length : Int) + 1)
              ((e.header.name.length : Int) - ((goExt filename).length : Int)) with
          | .error p => .error p
          | .ok suffix =>
            if (goAtoi suffix).isSome then .ok true
            else findDuplicateLoop filename rest
        else findDuplicateLoop filename rest) = .ok b := h
    by_cases hexact : e.header.name = filename
    · rw [if_pos hexact] at h
      injection h with h1
      constructor
      · intro _
        exact ⟨e, by simp, by unfold goCollides; simp [hexact]⟩
      · intro _
        exact h1.symm
    · rw [if_neg hexact] at h
      by_cases hpre : ((filename.take (filename.length - (goExt filename).length)) ++
          ['_']).isPrefixOf e.header.name = true
      · rw [if_pos hpre] at h
        cases hsl : goSlice e.header.name
            (((filename.take (filename.length - (goExt filename).length)).length : Int) + 1)
            ((e.header.name.length : Int) - ((goExt filename).length : Int)) with
        | error p => rw [hsl] at h; cases h
        | ok suffix =>
          rw [hsl] at h
          replace h : (if (goAtoi suffix).isSome = true
              then (Except.ok true : Except GoPanic Bool)
              else findDuplicateLoop filename rest) = Except.ok b := h
          by_cases hat : (goAtoi suffix).isSome = true
          · rw [if_pos hat] at h
            injection h with h1
            constructor
            · intro _
              refine ⟨e, by simp, ?_⟩
              unfold goCollides
              rw [hsl]
              simp [hexact, hpre, hat]
            · intro _
              exact h1.symm
          · rw [if_neg hat] at h
            rw [ih b h]
            constructor
            · rintro ⟨x, hx, hcx⟩
              exact ⟨x, by simp [hx], hcx⟩
            · rintro ⟨x, hx, hcx⟩
              rcases List.mem_cons.mp hx with h1 | h1
              · subst h1
                exfalso
                unfold goCollides at hcx
                rw [hsl] at hcx
                simp [hexact, hat] at hcx
              · exact ⟨x, h1, hcx⟩
      · rw [if_neg hpre] at h
        rw [ih b h]
        constructor
        · rintro ⟨x, hx, hcx⟩
          exact ⟨x, by simp [hx], hcx⟩
        · rintro ⟨x, hx, hcx⟩
          rcases List.mem_cons.mp hx with h1 | h1
          · subst h1
            exfalso
            unfold goCollides at hcx
            simp [hexact, hpre] at hcx
          · exact ⟨x, h1, hcx⟩

/-- Witness for C5 amended: the scan over the counterexample archive
returns `true`, and the characterisation exhibits the colliding member. -/
theorem C5_collision_characterisation_witness :
    (true = true ↔ ∃ e ∈ [⟨⟨"report_1.foo".toList, '0', 420, 0, 0, 0, 0⟩, ([] : List Nat)⟩],
      goCollides "report.txt".toList e = true) :=
  C5_collision_characterisation _ _ true (by rfl)

/-! ## Claim C6 -/

/-- The k-th alternate name probed by the rename loop:
`fmt.Sprintf("%s_%d%s", name, count, ext)`. -/
def suffixCandidate (base ext : GoStr) (k : Nat) : GoStr :=
  base ++ '_' :: (natToDigits k ++ ext)

theorem addNumericSuffixLoop_spec (archive : List FileEntry) (base ext : GoStr)
    (cand : Nat → GoStr) (hcand : ∀ k, cand (k + 1) = suffixCandidate base ext (k + 1)) :
    ∀ (fuel count : Nat) (res : GoStr),
      addNumericSuffixLoop archive base ext fuel count (cand count) = .ok (some res) →
      findDuplicateFile archive res = .ok false ∧
      ∃ k, count ≤ k ∧ res = cand k ∧
        ∀ j, count ≤ j → j < k → findDuplicateFile archive (cand j) = .ok true := by
  intro fuel
  induction fuel with
  | zero =>
    intro count res h
    replace h : (Except.ok (none : Option GoStr) : Except GoPanic (Option GoStr)) =
      .ok (some res) := h
    injection h with h1
    cases h1
  | succ f ih =>
    intro count res h
    replace h : (match findDuplicateFile archive (cand count) with
      | .error p => (Except.error p : Except GoPanic (Option GoStr))
      | .ok false => .ok (some (cand count))
      | .ok true => addNumericSuffixLoop archive base ext f (count + 1)
          (base ++ '_' :: (natToDigits (count + 1) ++ ext))) = .ok (some res) := h
    cases hdup : findDuplicateFile archive (cand count) with
    | error p => rw [hdup] at h; cases h
    | ok bb =>
      cases bb with
      | false =>
        rw [hdup] at h
        replace h : (Except.ok (some (cand count)) : Except GoPanic (Option GoStr)) =
          .ok (some res) := h
        injection h with h1
        injection h1 with h2
        subst h2
        exact ⟨hdup, count, le_refl _, rfl, fun j hj1 hj2 => absurd hj2 (by omega)⟩
      | true =>
        rw [hdup] at h
        replace h : addNumericSuffixLoop archive base ext f (count + 1)
            (base ++ '_' :: (natToDigits (count + 1) ++ ext)) = .ok (some res) := h
        rw [show (base ++ '_' :: (natToDigits (count + 1) ++ ext)) = cand (count + 1)
          from (hcand count).symm] at h
        obtain ⟨hfree, k, hk, hres, hblocked⟩ := ih (count + 1) res h
        refine ⟨hfree, k, by omega, hres, ?_⟩
        intro j hj1 hj2
        by_cases hje : j = count
        · subst hje; exact hdup
        · exact hblocked j (by omega) hj2

/-- C6: accepting a rename probes `base_1<ext>`, `base_2<ext>`, ... in
increasing order and returns the first candidate the duplicate probe
clears; concretely, adding `report.txt` over an existing `report.txt`
yields `report_1.txt`, and over `report.txt` plus `report_1.txt` yields
`report_2.txt`. -/
theorem C6_rename_probes_first_free :
    (addNumericSuffix [⟨⟨"report.txt".toList, '0', 420, 0, 0, 3, 0⟩, [1, 2, 3]⟩]
        "report.txt".toList = .ok (some "report_1.txt".toList)) ∧
    (addNumericSuffix [⟨⟨"report.txt".toList, '0', 420, 0, 0, 3, 0⟩, [1, 2, 3]⟩,
        ⟨⟨"report_1.txt".toList, '0', 420, 0, 0, 3, 0⟩, [4, 5, 6]⟩]
        "report.txt".toList = .ok (some "report_2.txt".toList)) ∧
    ∀ (archive : List FileEntry) (filename res : GoStr),
      addNumericSuffix archive filename = .ok (some res) →
      findDuplicateFile archive res = .ok false ∧
      (res ≠ filename →
        findDuplicateFile archive filename = .ok true ∧
        ∃ k, 1 ≤ k ∧
          res = suffixCandidate
            (filename.take (filename.length - (goExt filename).length)) (goExt filename) k ∧
          ∀ j, 1 ≤ j → j < k →
            findDuplicateFile archive (suffixCandidate
              (filename.take (filename.length - (goExt filename).length))
              (goExt filename) j) = .ok true) := by
  refine ⟨by rfl, by rfl, ?_⟩
  intro archive filename res h
  have hspec := addNumericSuffixLoop_spec archive
    (filename.take (filename.length - (goExt filename).length)) (goExt filename)
    (fun n => match n with
      | 0 => filename
      | k + 1 => suffixCandidate
          (filename.take (filename.length - (goExt filename).length)) (goExt filename) (k + 1))
    (fun k => rfl)
    (2 * archive.length + 2) 0 res h
  obtain ⟨hfree, k, _, hres, hblocked⟩ := hspec
  refine ⟨hfree, ?_⟩
  intro hne
  cases k with
  | zero => exact absurd hres hne
  | succ k' =>
    constructor
    · exact hblocked 0 (Nat.zero_le _) (Nat.succ_pos _)
    · refine ⟨k' + 1, by omega, hres, ?_⟩
      intro j hj1 hj2
      have := hblocked j (by omega) hj2
      cases j with
      | zero => omega
      | succ j' => exact this

/-- Witness for the general part of C6: against an archive holding only
`report.txt`, the loop's result `report_1.txt` probes as free. -/
theorem C6_rename_probes_first_free_witness :
    findDuplicateFile [⟨⟨"report.txt".toList, '0', 420, 0, 0, 3, 0⟩, [1, 2, 3]⟩]
      "report_1.txt".toList = .ok false :=
  (C6_rename_probes_first_free.2.2
    [⟨⟨"report.txt".toList, '0', 420, 0, 0, 3, 0⟩, [1, 2, 3]⟩]
    "report.txt".toList "report_1.txt".toList (by rfl)).1

/-! ## Claim C1 -/

theorem rebuiltEntries_length (m : List (GoStr × FileEntry)) :
    (rebuiltEntries m).length = (sortedKeys m).length := by
  unfold rebuiltEntries
  rw [List.length_map]

theorem rebuiltEntries_get_name {m : List (GoStr × FileEntry)} (hKM : keysMatch m)
    (i : Nat) (hi : i < (rebuiltEntries m).length) :
    ((rebuiltEntries m).get ⟨i, hi⟩).header.name =
      (sortedKeys m).get ⟨i, by rw [← rebuiltEntries_length m]; exact hi⟩ := by
  unfold rebuiltEntries at hi ⊢
  rw [List.get_eq_getElem, List.getElem_map, fixSize_name]
  apply mapEntryD_name hKM
  rw [← mem_sortedKeys]
  exact List.getElem_mem _

theorem rebuiltEntries_order {m : List (GoStr × FileEntry)} (hnd : nodupKeys m)
    (hKM : keysMatch m) (i j : Nat) (hi : i < (rebuiltEntries m).length)
    (hj : j < (rebuiltEntries m).length) (hne : i ≠ j) :
    (i < j ↔ sortedKeysLess ((rebuiltEntries m).get ⟨i, hi⟩).header.name
      ((rebuiltEntries m).get ⟨j, hj⟩).header.name = true) := by
  rw [rebuiltEntries_get_name hKM i hi, rebuiltEntries_get_name hKM j hj]
  have hi' : i < (sortedKeys m).length := by rw [← rebuiltEntries_length m]; exact hi
  have hj' : j < (sortedKeys m).length := by rw [← rebuiltEntries_length m]; exact hj
  have hsorted := sortedKeys_sorted m
  have hnodup := sortedKeys_nodup hnd
  have hfwd : ∀ (a b : Nat) (ha : a < (sortedKeys m).length) (hb : b < (sortedKeys m).length),
      a < b → sortedKeysLess ((sortedKeys m).get ⟨a, ha⟩) ((sortedKeys m).get ⟨b, hb⟩) = true := by
    intro a b ha hb hab
    have hrel : keyOrder ((sortedKeys m).get ⟨a, ha⟩) ((sortedKeys m).get ⟨b, hb⟩) :=
      hsorted.rel_get_of_lt hab
    have hne2 : (sortedKeys m).get ⟨a, ha⟩ ≠ (sortedKeys m).get ⟨b, hb⟩ := by
      intro heq
      have := (List.Nodup.get_inj_iff hnodup).mp heq
      simp only [Fin.mk.injEq] at this
      omega
    exact lt_of_keyOrder_ne hrel hne2
  constructor
  · intro hij
    exact hfwd i j hi' hj' hij
  · intro hless
    rcases Nat.lt_trichotomy i j with h1 | h1 | h1
    · exact h1
    · exact absurd h1 hne
    · exfalso
      have := hfwd j i hj' hi' h1
      rw [sortedKeysLess_asymm this] at hless
      exact Bool.false_ne_true hless

/-- C1: an archive rewritten by the reorganize/encode path emits its
members in segment-wise path-lexicographic order of their names: member
`i` precedes member `j` exactly when the `sortedKeys` comparator ranks
the name at `i` before the name at `j` (shorter pure-prefix paths first;
`a/b` before `a/b/c` and before `a/c`). -/
theorem C1_reorganize_emits_canonical_order (compress : Bool) (algorithm : GoStr)
    (level : Int) (fs fs' : FS)
    (h : reorganizeTarball compress algorithm level fs = (.ok (), fs')) :
    sortedKeysLess "a/b".toList "a/b/c".toList = true ∧
    sortedKeysLess "a/b".toList "a/c".toList = true ∧
    ∃ es : List FileEntry,
      readTarStream compress algorithm fs'.contents = .ok es ∧
      ∀ (i j : Nat) (hi : i < es.length) (hj : j < es.length), i ≠ j →
        (i < j ↔ sortedKeysLess (es.get ⟨i, hi⟩).header.name
          (es.get ⟨j, hj⟩).header.name = true) := by
  refine ⟨by decide, by decide, ?_⟩
  unfold reorganizeTarball at h
  cases hr : readTarStream compress algorithm fs.contents with
  | error e =>
    rw [hr] at h
    injection h with h1 h2
    cases h1
  | ok entries =>
    rw [hr] at h
    replace h : (match renderSorted compress algorithm level (buildMap entries) with
      | Except.error e => ((Except.error e : Except TarErr Unit), fs)
      | Except.ok buffer => (Except.ok (), { contents := buffer, mode := fs.mode })) =
        (Except.ok (), fs') := h
    rw [renderSorted_committed compress algorithm level
      (fun p hp => dirValuesOK_buildMap (readTarStream_wf hr) p hp)] at h
    replace h : ((Except.ok () : Except TarErr Unit),
        ({ contents := committedBytes compress algorithm (buildMap entries),
           mode := fs.mode } : FS)) = (Except.ok (), fs') := h
    injection h with h1 h2
    subst h2
    refine ⟨rebuiltEntries (buildMap entries), ?_, ?_⟩
    · exact readTarStream_committedBytes hr
        (fun p hp => dirValuesOK_buildMap (readTarStream_wf hr) p hp)
    · exact rebuiltEntries_order (nodupKeys_buildMap entries) (keysMatch_buildMap entries)

/-- Witness for C1 at a three-member archive `a/b/c`, `a/c`, `a/b`:
reorganizing emits `a/b`, `a/b/c`, `a/c`, and the order matches the
comparator pairwise. -/
theorem C1_reorganize_emits_canonical_order_witness :
    sortedKeysLess "a/b".toList "a/b/c".toList = true ∧
    sortedKeysLess "a/b".toList "a/c".toList = true ∧
    ∃ es : List FileEntry,
      readTarStream false []
        (reorganizeTarball false [] 4
          ⟨entriesBytes [⟨⟨"a/b/c".toList, '0', 0, 0, 0, 1, 0⟩, [3]⟩,
            ⟨⟨"a/c".toList, '0', 0, 0, 0, 1, 0⟩, [2]⟩,
            ⟨⟨"a/b".toList, '0', 0, 0, 0, 1, 0⟩, [1]⟩], 420⟩).2.contents = .ok es ∧
      ∀ (i j : Nat) (hi : i < es.length) (hj : j < es.length), i ≠ j →
        (i < j ↔ sortedKeysLess (es.get ⟨i, hi⟩).header.name
          (es.get ⟨j, hj⟩).header.name = true) :=
  C1_reorganize_emits_canonical_order false [] 4
    ⟨entriesBytes [⟨⟨"a/b/c".toList, '0', 0, 0, 0, 1, 0⟩, [3]⟩,
      ⟨⟨"a/c".toList, '0', 0, 0, 0, 1, 0⟩, [2]⟩,
      ⟨⟨"a/b".toList, '0', 0, 0, 0, 1, 0⟩, [1]⟩], 420⟩
    _ (by rfl)

/-! ## `filepath.Match` on literal patterns -/

/-- A pattern character with no special meaning to `Match`. -/
def isLiteralChar (c : Char) : Bool := !(c = '[' || c = '?' || c = '\\' || c = '*')

theorem matchChunkAux_lit_failed :
    ∀ (cs : List Char) (fuel : Nat) (s : List Char), cs.all isLiteralChar = true →
      cs.length < fuel → matchChunkAux fuel cs s true = .ok ([], false) := by
  intro cs
  induction cs with
  | nil =>
    intro fuel s _ hf
    cases fuel with
    | zero => omega
    | succ f => rfl
  | cons c cs' ih =>
    intro fuel s hall hf
    cases fuel with
    | zero => omega
    | succ f =>
      have hc : isLiteralChar c = true := by
        have := List.all_eq_true.mp hall c (by simp)
        exact this
      unfold isLiteralChar at hc
      simp only [Bool.not_eq_eq_eq_not, Bool.not_true, Bool.or_eq_false_iff,
        decide_eq_false_iff_not] at hc
      obtain ⟨⟨⟨hc1, hc2⟩, hc3⟩, _⟩ := hc
      show matchChunkAux (f + 1) (c :: cs') s true = .ok ([], false)
      simp only [matchChunkAux, Bool.true_or, if_neg hc1, if_neg hc2, if_neg hc3,
        Bool.true_or, if_true]
      exact ih f s (by have := List.all_eq_true.mp hall
                       apply List.all_eq_true.mpr
                       intro x hx
                       exact this x (by simp [hx])) (by simpa using hf)

theorem matchChunkAux_lit :
    ∀ (cs : List Char) (fuel : Nat) (s : List Char), cs.all isLiteralChar = true →
      cs.length < fuel →
      matchChunkAux fuel cs s false =
        if cs.isPrefixOf s then .ok (s.drop cs.length, true) else .ok ([], false) := by
  intro cs
  induction cs with
  | nil =>
    intro fuel s _ hf
    cases fuel with
    | zero => omega
    | succ f => simp [matchChunkAux, List.isPrefixOf]
  | cons c cs' ih =>
    intro fuel s hall hf
    cases fuel with
    | zero => omega
    | succ f =>
      have hc : isLiteralChar c = true := List.all_eq_true.mp hall c (by simp)
      unfold isLiteralChar at hc
      simp only [Bool.not_eq_eq_eq_not, Bool.not_true, Bool.or_eq_false_iff,
        decide_eq_false_iff_not] at hc
      obtain ⟨⟨⟨hc1, hc2⟩, hc3⟩, _⟩ := hc
      have hall' : cs'.all isLiteralChar = true := by
        apply List.all_eq_true.mpr
        intro x hx
        exact List.all_eq_true.mp hall x (by simp [hx])
      have hf' : cs'.length < f := by simpa using hf
      cases s with
      | nil =>
        show matchChunkAux (f + 1) (c :: cs') [] false = _
        simp only [matchChunkAux, List.isEmpty_nil, if_neg hc1, if_neg hc2, if_neg hc3]
        simp only [Bool.false_or, Bool.true_or, eq_self_iff_true, if_true]
        rw [matchChunkAux_lit_failed cs' f [] hall' hf']
        simp [List.isPrefixOf]
      | cons a s' =>
        show matchChunkAux (f + 1) (c :: cs') (a :: s') false = _
        by_cases hac : a = c
        · subst hac
          simp only [matchChunkAux, List.isEmpty_cons, Bool.false_or, if_neg hc1,
            if_neg hc2, if_neg hc3, List.headD_cons, List.tail_cons]
          have hd : decide (a ≠ a) = false := by simp
          simp only [Bool.false_eq_true, if_false, hd]
          rw [ih f s' hall' hf']
          by_cases hpre : cs'.isPrefixOf s' = true
          · rw [if_pos hpre, if_pos (by simp [List.isPrefixOf, hpre])]
            rfl
          · rw [if_neg hpre, if_neg (by simp [List.isPrefixOf, hpre])]
        · simp only [matchChunkAux, List.isEmpty_cons, Bool.false_or, if_neg hc1,
            if_neg hc2, if_neg hc3, List.headD_cons, List.tail_cons]
          have hd : decide (a ≠ c) = true := by simp [hac]
          simp only [Bool.false_eq_true, if_false, hd]
          rw [matchChunkAux_lit_failed cs' f s' hall' hf']
          rw [if_neg (show ¬ ((c :: cs').isPrefixOf (a :: s') = true) from by
            simp only [List.isPrefixOf, Bool.and_eq_true, beq_iff_eq]
            intro hcon
            exact hac hcon.1.symm)]

theorem scanChunkAux_literal :
    ∀ (p : List Char) (inrange : Bool), p.all isLiteralChar = true →
      scanChunkAux p inrange = (p, []) := by
  intro p
  induction p with
  | nil => intro inrange _; rfl
  | cons c rest ih =>
    intro inrange hall
    have hc : isLiteralChar c = true := List.all_eq_true.mp hall c (by simp)
    unfold isLiteralChar at hc
    simp only [Bool.not_eq_eq_eq_not, Bool.not_true, Bool.or_eq_false_iff,
      decide_eq_false_iff_not] at hc
    obtain ⟨⟨⟨hc1, hc2⟩, hc3⟩, hc4⟩ := hc
    have hall' : rest.all isLiteralChar = true := by
      apply List.all_eq_true.mpr
      intro x hx
      exact List.all_eq_true.mp hall x (by simp [hx])
    show scanChunkAux (c :: rest) inrange = (c :: rest, [])
    unfold scanChunkAux
    rw [if_neg (by simp [hc4])]
    rw [if_neg hc3]
    simp only [ih _ hall']

theorem scanChunk_literal {p : List Char} (hall : p.all isLiteralChar = true) :
    scanChunk p = (false, p, []) := by
  have hdrop : dropStars p = (false, p) := by
    cases p with
    | nil => rfl
    | cons c rest =>
      have hc := List.all_eq_true.mp hall c (by simp)
      unfold isLiteralChar at hc
      simp only [Bool.not_eq_eq_eq_not, Bool.not_true, Bool.or_eq_false_iff,
        decide_eq_false_iff_not] at hc
      unfold dropStars
      rw [if_neg hc.2]
  unfold scanChunk
  simp only [hdrop, scanChunkAux_literal p false hall]

theorem isPrefixOf_drop_eq {l n : GoStr} (hpre : l.isPrefixOf n = true)
    (hdrop : n.drop l.length = []) : n = l := by
  induction l generalizing n with
  | nil =>
    simpa using hdrop
  | cons c cs ih =>
    cases n with
    | nil => simp [List.isPrefixOf] at hpre
    | cons a as =>
      simp only [List.isPrefixOf, Bool.and_eq_true, beq_iff_eq] at hpre
      have := ih hpre.2 (by simpa using hdrop)
      rw [this, hpre.1]


theorem isPrefixOf_self (l : GoStr) : l.isPrefixOf l = true := by
  induction l with
  | nil => rfl
  | cons c cs ih => simp [List.isPrefixOf, ih]

theorem goMatch_literal {p : List Char} (hall : p.all isLiteralChar = true) (n : GoStr) :
    goMatch p n = .ok (decide (n = p)) := by
  unfold goMatch
  cases p with
  | nil =>
    show Except.ok n.isEmpty = .ok (decide (n = []))
    rw [show n.isEmpty = decide (n = []) from by cases n <;> simp]
  | cons c ps =>
    show goMatchAux ((c :: ps).length + 1) (c :: ps) n = .ok (decide (n = c :: ps))
    have hlen : (c :: ps).length + 1 = ps.length + 1 + 1 := by simp
    rw [hlen]
    simp only [goMatchAux, scanChunk_literal hall]
    have hmc2 : matchChunk (c :: ps) n =
        if (c :: ps).isPrefixOf n then .ok (n.drop (c :: ps).length, true)
        else .ok ([], false) :=
      matchChunkAux_lit (c :: ps) ((c :: ps).length + 1) n hall (by omega)
    by_cases hpre : (c :: ps).isPrefixOf n = true
    · rw [if_pos hpre] at hmc2
      simp only [Bool.false_and, Bool.false_eq_true, if_false, hmc2]
      by_cases hdrop : (n.drop (c :: ps).length).isEmpty = true
      · have hn : n = c :: ps :=
          isPrefixOf_drop_eq hpre (List.isEmpty_iff.mp hdrop)
        simp only [hdrop, hn]
        simp
      · have hne : ¬ n = c :: ps := by
          intro heq
          apply hdrop
          rw [heq]
          simp
        simp only [hdrop]
        simp [hne, checkRemaining]
    · rw [if_neg hpre] at hmc2
      have hne : ¬ n = c :: ps := by
        intro heq
        apply hpre
        rw [heq]
        exact isPrefixOf_self (c :: ps)
      simp only [Bool.false_and, Bool.false_eq_true, if_false, hmc2]
      simp [hne, checkRemaining]

/-! ## Characterisation of `deleteFromTarball` -/

theorem exists_name_rebuilt {m : List (GoStr × FileEntry)} (hKM : keysMatch m) (n : GoStr) :
    (∃ e ∈ rebuiltEntries m, e.header.name = n) ↔ n ∈ mapKeys m := by
  constructor
  · rintro ⟨e, he, hname⟩
    unfold rebuiltEntries at he
    obtain ⟨k, hk, hke⟩ := List.mem_map.mp he
    have hkn : k = n := by
      rw [← hname, ← hke, fixSize_name, mapEntryD_name hKM ((mem_sortedKeys m k).mp hk)]
    rw [← hkn]
    exact (mem_sortedKeys m k).mp hk
  · intro hn
    refine ⟨fixSize (mapEntryD m n), ?_, ?_⟩
    · unfold rebuiltEntries
      exact List.mem_map.mpr ⟨n, (mem_sortedKeys m n).mpr hn, rfl⟩
    · rw [fixSize_name]
      exact mapEntryD_name hKM hn

theorem mem_kept_iff (entries : List FileEntry) (patterns : List GoStr)
    (pred : GoStr → Bool) (hpred : ∀ n, shouldDeleteName patterns n = pred n) (n : GoStr) :
    (∃ e ∈ entries.filter (fun e => !(shouldDeleteName patterns e.header.name)),
        e.header.name = n) ↔
      ((∃ e ∈ entries, e.header.name = n) ∧ pred n = false) := by
  constructor
  · rintro ⟨e, he, hname⟩
    have hf := List.mem_filter.mp he
    refine ⟨⟨e, hf.1, hname⟩, ?_⟩
    have h2 : shouldDeleteName patterns e.header.name = false := by
      have := hf.2
      simpa using this
    rw [hname, hpred n] at h2
    exact h2
  · rintro ⟨⟨e, he, hname⟩, hp⟩
    refine ⟨e, List.mem_filter.mpr ⟨he, ?_⟩, hname⟩
    have h2 : shouldDeleteName patterns e.header.name = false := by
      rw [hpred, hname]
      exact hp
    simp [h2]

theorem deleteFromTarball_spec {compress : Bool} {algorithm : GoStr} (level : Int)
    {fs : FS} {entries : List FileEntry} (patterns : List GoStr) (pred : GoStr → Bool)
    (hpred : ∀ n, shouldDeleteName patterns n = pred n)
    (hread : readTarStream compress algorithm fs.contents = .ok entries) :
    ∃ fs' es', deleteFromTarball compress algorithm level fs patterns = (.ok (), fs') ∧
      readTarStream compress algorithm fs'.contents = .ok es' ∧
      ∀ n : GoStr, (∃ e ∈ es', e.header.name = n) ↔
        ((∃ e ∈ entries, e.header.name = n) ∧ pred n = false) := by
  have hok := deleteFromTarball_ok level patterns hread
  refine ⟨_, rebuiltEntries (buildMap (entries.filter
    (fun e => !(shouldDeleteName patterns e.header.name)))), hok, ?_, ?_⟩
  · exact readTarStream_committedBytes hread (fun p hp =>
      dirValuesOK_buildMap
        (fun e he => readTarStream_wf hread e (List.mem_of_mem_filter he)) p hp)
  · intro n
    rw [exists_name_rebuilt (keysMatch_buildMap _) n, mem_mapKeys_buildMap]
    exact mem_kept_iff entries patterns pred hpred n

/-! ## Claim C7 -/

theorem shouldDeleteName_logs (n : GoStr) :
    shouldDeleteName ["logs/".toList] n = "logs/".toList.isPrefixOf n := by
  unfold shouldDeleteName
  simp only [List.any_cons, List.any_nil, Bool.or_false]
  rw [goMatch_literal (by decide) n]
  rw [show trimSuffixSlash "logs/".toList ++ ['/'] = "logs/".toList from by decide]
  cases hd : ("logs/".toList).isPrefixOf n with
  | true => simp [hd]
  | false =>
    simp only [hd, Bool.or_false]
    apply decide_eq_false
    intro heq
    rw [heq, isPrefixOf_self] at hd
    cases hd

/-- C7: deleting with pattern `logs/` removes exactly the members whose
names start with `logs/` (the glob itself only matches the name
`logs/`, which that set already contains) and keeps every other member -
in particular a member literally named `logs` survives. -/
theorem C7_delete_logs_subtree (compress : Bool) (algorithm : GoStr) (level : Int)
    (fs : FS) (entries : List FileEntry)
    (hread : readTarStream compress algorithm fs.contents = .ok entries) :
    ∃ fs' es', deleteFromTarball compress algorithm level fs ["logs/".toList] =
        (.ok (), fs') ∧
      readTarStream compress algorithm fs'.contents = .ok es' ∧
      (∀ n : GoStr, (∃ e ∈ es', e.header.name = n) ↔
        ((∃ e ∈ entries, e.header.name = n) ∧ "logs/".toList.isPrefixOf n = false)) ∧
      ((∃ e ∈ entries, e.header.name = "logs".toList) →
        ∃ e ∈ es', e.header.name = "logs".toList) := by
  obtain ⟨fs', es', h1, h2, h3⟩ :=
    deleteFromTarball_spec level ["logs/".toList] _ shouldDeleteName_logs hread
  refine ⟨fs', es', h1, h2, h3, ?_⟩
  intro hmem
  exact (h3 "logs".toList).mpr ⟨hmem, by decide⟩

/-- Entries of the C7/C8 witness archives. -/
def c7Entries : List FileEntry :=
  [⟨⟨"logs".toList, '0', 1, 0, 0, 1, 0⟩, [1]⟩,
   ⟨⟨"logs/a.txt".toList, '0', 1, 0, 0, 1, 0⟩, [2]⟩,
   ⟨⟨"readme".toList, '0', 1, 0, 0, 1, 0⟩, [3]⟩]

/-- Witness for C7: an archive holding `logs` (a file), `logs/a.txt` and
`readme` decodes, and the theorem applies to it. -/
theorem C7_delete_logs_subtree_witness :
    ∃ fs' es', deleteFromTarball false [] 4
        ⟨entriesBytes c7Entries, 420⟩ ["logs/".toList] = (.ok (), fs') ∧
      readTarStream false [] fs'.contents = .ok es' ∧
      (∀ n : GoStr, (∃ e ∈ es', e.header.name = n) ↔
        ((∃ e ∈ c7Entries, e.header.name = n) ∧
          "logs/".toList.isPrefixOf n = false)) ∧
      ((∃ e ∈ c7Entries, e.header.name = "logs".toList) →
        ∃ e ∈ es', e.header.name = "logs".toList) :=
  C7_delete_logs_subtree false [] 4 ⟨entriesBytes c7Entries, 420⟩ c7Entries (by rfl)

/-! ## Claim C3 -/

theorem goMatch_lbracket (n : GoStr) : goMatch ['['] n = .error () := rfl

theorem shouldDeleteName_lbracket (n : GoStr) :
    shouldDeleteName [['[']] n = (['[', '/'] : GoStr).isPrefixOf n := by
  unfold shouldDeleteName
  simp only [List.any_cons, List.any_nil, Bool.or_false]
  rw [goMatch_lbracket n]
  rw [show trimSuffixSlash ['['] ++ ['/'] = (['[', '/'] : GoStr) from by decide]
  rfl

/-- The single-file archive of the C3 counterexample. -/
def c3Entry : FileEntry := ⟨⟨"file.txt".toList, '0', 1, 0, 0, 2, 0⟩, [7, 8]⟩

/-- C3 counterexample: deleting with the syntactically invalid glob `[`
does not fail - `filepath.Match`'s `ErrBadPattern` is discarded into the
blank identifier - and the archive is rewritten: the operation reports
success and the rebuilt archive still holds the sole member unchanged. -/
theorem C3_invalid_pattern_counterexample :
    (deleteFromTarball false [] 4 ⟨entriesBytes [c3Entry], 420⟩ [['[']]).1 = .ok () ∧
    readTarStream false []
      (deleteFromTarball false [] 4 ⟨entriesBytes [c3Entry], 420⟩ [['[']]).2.contents =
      .ok [c3Entry] := by
  constructor
  · rfl
  · rfl

/-- C3 amended: a delete invocation whose pattern list contains the
invalid glob `[` succeeds instead of failing with a pattern error: the
match error is silently discarded, the invalid pattern removes only
members whose names begin with `[/` (its literal trimmed-prefix branch),
and the archive is rewritten in canonical order. -/
theorem C3_invalid_pattern_amended (compress : Bool) (algorithm : GoStr) (level : Int)
    (fs : FS) (entries : List FileEntry)
    (hread : readTarStream compress algorithm fs.contents = .ok entries) :
    ∃ fs' es', deleteFromTarball compress algorithm level fs [['[']] = (.ok (), fs') ∧
      readTarStream compress algorithm fs'.contents = .ok es' ∧
      ∀ n : GoStr, (∃ e ∈ es', e.header.name = n) ↔
        ((∃ e ∈ entries, e.header.name = n) ∧
          (['[', '/'] : GoStr).isPrefixOf n = false) :=
  deleteFromTarball_spec level [['[']] _ shouldDeleteName_lbracket hread

/-- Witness for C3 amended at the counterexample archive. -/
theorem C3_invalid_pattern_amended_witness :
    ∃ fs' es', deleteFromTarball false [] 4 ⟨entriesBytes [c3Entry], 420⟩ [['[']] =
        (.ok (), fs') ∧
      readTarStream false [] fs'.contents = .ok es' ∧
      ∀ n : GoStr, (∃ e ∈ es', e.header.name = n) ↔
        ((∃ e ∈ [c3Entry], e.header.name = n) ∧
          (['[', '/'] : GoStr).isPrefixOf n = false) :=
  C3_invalid_pattern_amended false [] 4 ⟨entriesBytes [c3Entry], 420⟩ [c3Entry] (by rfl)

/-! ## Claim C8 -/

/-- C8: updating with one file replaces the entry stored under its name
(content and recomputed size) when it already exists and inserts it when
it does not, while the entry found under every other name in the rebuilt
archive is exactly the entry of the original archive. -/
theorem C8_update_replaces_or_inserts (compress : Bool) (algorithm : GoStr) (level : Int)
    (fs : FS) (entries : List FileEntry) (e : FileEntry)
    (hread : readTarStream compress algorithm fs.contents = .ok entries)
    (hnodup : (entries.map (fun x => x.header.name)).Nodup)
    (hdirE : e.header.isDir = true → e.content = []) :
    ∃ fs' es', updateTarball compress algorithm level fs [e] = (.ok (), fs') ∧
      readTarStream compress algorithm fs'.contents = .ok es' ∧
      entriesFind es' e.header.name = some (fixSize e) ∧
      ∀ n : GoStr, n ≠ e.header.name → entriesFind es' n = entriesFind entries n := by
  have hdirAdd : ∀ x ∈ [e], x.header.isDir = true → x.content = [] := by
    intro x hx
    rw [List.mem_singleton.mp hx]
    exact hdirE
  have hok := updateTarball_ok level hread hdirAdd
  have hins : insertAll (buildMap entries) [e] =
      mapInsert (buildMap entries) e.header.name e := rfl
  have hKM : keysMatch (insertAll (buildMap entries) [e]) := by
    rw [hins]
    exact keysMatch_mapInsert (keysMatch_buildMap entries) rfl
  have hdirM : dirValuesOK (insertAll (buildMap entries) [e]) :=
    valuesProp_insertAll [e] (buildMap entries)
      (fun p hp => dirValuesOK_buildMap (readTarStream_wf hread) p hp) hdirAdd
  refine ⟨⟨committedBytes compress algorithm (insertAll (buildMap entries) [e]), fs.mode⟩,
    rebuiltEntries (insertAll (buildMap entries) [e]), hok,
    readTarStream_committedBytes hread hdirM, ?_, ?_⟩
  · rw [entriesFind_rebuilt hKM, hins, mapFind_mapInsert_self]
    rfl
  · intro n hn
    rw [entriesFind_rebuilt hKM, hins, mapFind_mapInsert_ne _ _ hn,
      buildMap_of_nodup hnodup, mapFind_pairs]
    cases hf : entriesFind entries n with
    | none => rfl
    | some v =>
      have hv : v ∈ entries := List.mem_of_find?_eq_some hf
      rw [Option.map_some', fixSize_of_wf (readTarStream_wf hread v hv)]

/-- Witness for C8: updating the `readme` member of the three-member
archive replaces its content while leaving `logs` and `logs/a.txt`
lookups untouched. -/
theorem C8_update_replaces_or_inserts_witness :
    ∃ fs' es', updateTarball false [] 4 ⟨entriesBytes c7Entries, 420⟩
        [⟨⟨"readme".toList, '0', 1, 0, 0, 2, 0⟩, [9, 9]⟩] = (.ok (), fs') ∧
      readTarStream false [] fs'.contents = .ok es' ∧
      entriesFind es' "readme".toList =
        some (fixSize ⟨⟨"readme".toList, '0', 1, 0, 0, 2, 0⟩, [9, 9]⟩) ∧
      ∀ n : GoStr, n ≠ "readme".toList → entriesFind es' n = entriesFind c7Entries n :=
  C8_update_replaces_or_inserts false [] 4 ⟨entriesBytes c7Entries, 420⟩ c7Entries
    ⟨⟨"readme".toList, '0', 1, 0, 0, 2, 0⟩, [9, 9]⟩ (by rfl) (by decide)
    (fun h => by cases h)

/-! ## Claim C9 -/

theorem rebuiltEntries_idem {m : List (GoStr × FileEntry)} (hnd : nodupKeys m)
    (hKM : keysMatch m) :
    rebuiltEntries (buildMap (rebuiltEntries m)) = rebuiltEntries m := by
  have hnames : (rebuiltEntries m).map (fun e => e.header.name) = sortedKeys m :=
    rebuiltEntries_names hKM
  have hRnodup : ((rebuiltEntries m).map (fun e => e.header.name)).Nodup := by
    rw [hnames]
    exact sortedKeys_nodup hnd
  have hbuild : buildMap (rebuiltEntries m) =
      (rebuiltEntries m).map (fun e => (e.header.name, e)) := buildMap_of_nodup hRnodup
  have hkeys : mapKeys (buildMap (rebuiltEntries m)) = sortedKeys m := by
    rw [hbuild]
    unfold mapKeys
    rw [List.map_map, ← hnames]
    rfl
  have hsorted2 : sortedKeys (buildMap (rebuiltEntries m)) = sortedKeys m := by
    unfold sortedKeys
    unfold mapKeys at hkeys
    rw [hkeys]
    exact (sortedKeys_sorted m).insertionSort_eq
  have hentry : ∀ n ∈ sortedKeys m,
      mapEntryD (buildMap (rebuiltEntries m)) n = fixSize (mapEntryD m n) := by
    intro n hn
    have h1 : mapFind (buildMap (rebuiltEntries m)) n = entriesFind (rebuiltEntries m) n := by
      rw [hbuild, mapFind_pairs]
    have h2 : entriesFind (rebuiltEntries m) n = (mapFind m n).map fixSize :=
      entriesFind_rebuilt hKM n
    have hsome : (mapFind m n).isSome :=
      (mapFind_isSome_iff m n).mpr ((mem_sortedKeys m n).mp hn)
    obtain ⟨v, hv⟩ := Option.isSome_iff_exists.mp hsome
    unfold mapEntryD
    rw [h1, h2, hv, Option.map_some']
    rfl
  show (sortedKeys (buildMap (rebuiltEntries m))).map
      (fun n => fixSize (mapEntryD (buildMap (rebuiltEntries m)) n)) =
    (sortedKeys m).map (fun n => fixSize (mapEntryD m n))
  rw [hsorted2]
  apply List.map_congr_left
  intro n hn
  rw [hentry n hn, fixSize_idem]

/-- C9: reorganizing is idempotent: once an archive has been rewritten by
`reorganizeTarball`, decoding it and running the reorganizer again
commits a byte-identical archive with the same member sequence. -/
theorem C9_reorganize_idempotent (compress : Bool) (algorithm : GoStr) (level : Int)
    (fs fs' : FS)
    (h : reorganizeTarball compress algorithm level fs = (.ok (), fs')) :
    reorganizeTarball compress algorithm level fs' = (.ok (), fs') := by
  unfold reorganizeTarball at h
  cases hr : readTarStream compress algorithm fs.contents with
  | error e =>
    rw [hr] at h
    injection h with h1 _
    cases h1
  | ok entries =>
    rw [hr] at h
    have hdir : dirValuesOK (buildMap entries) :=
      fun p hp => dirValuesOK_buildMap (readTarStream_wf hr) p hp
    replace h : (match renderSorted compress algorithm level (buildMap entries) with
      | Except.error e => ((Except.error e : Except TarErr Unit), fs)
      | Except.ok buffer => (Except.ok (), { contents := buffer, mode := fs.mode })) =
        (Except.ok (), fs') := h
    rw [renderSorted_committed compress algorithm level hdir] at h
    replace h : ((Except.ok () : Except TarErr Unit),
        ({ contents := committedBytes compress algorithm (buildMap entries),
           mode := fs.mode } : FS)) = (Except.ok (), fs') := h
    injection h with _ h2
    subst h2
    have hread2 : readTarStream compress algorithm
        (committedBytes compress algorithm (buildMap entries)) =
        .ok (rebuiltEntries (buildMap entries)) :=
      readTarStream_committedBytes hr hdir
    have hok2 := @reorganizeTarball_ok compress algorithm level
      ⟨committedBytes compress algorithm (buildMap entries), fs.mode⟩
      (rebuiltEntries (buildMap entries)) hread2
    rw [hok2]
    have hidem : rebuiltEntries (buildMap (rebuiltEntries (buildMap entries))) =
        rebuiltEntries (buildMap entries) :=
      rebuiltEntries_idem (nodupKeys_buildMap entries) (keysMatch_buildMap entries)
    unfold committedBytes
    rw [hidem]

/-- Witness for C9 at a concrete two-member archive. -/
theorem C9_reorganize_idempotent_witness :
    reorganizeTarball false [] 4
      (reorganizeTarball false [] 4
        ⟨entriesBytes [⟨⟨"b".toList, '0', 1, 0, 0, 1, 0⟩, [2]⟩,
          ⟨⟨"a".toList, '0', 1, 0, 0, 1, 0⟩, [1]⟩], 420⟩).2 =
      (.ok (), (reorganizeTarball false [] 4
        ⟨entriesBytes [⟨⟨"b".toList, '0', 1, 0, 0, 1, 0⟩, [2]⟩,
          ⟨⟨"a".toList, '0', 1, 0, 0, 1, 0⟩, [1]⟩], 420⟩).2) :=
  C9_reorganize_idempotent false [] 4
    ⟨entriesBytes [⟨⟨"b".toList, '0', 1, 0, 0, 1, 0⟩, [2]⟩,
      ⟨⟨"a".toList, '0', 1, 0, 0, 1, 0⟩, [1]⟩], 420⟩ _ (by rfl)
